import Mathlib

/-!
# Verification of the rust-tree traversal, filtering and statistics engine

A shallow embedding of the core of the `rust-tree` repository
(`src/core/{models,filter,walker,streaming,collector}.rs` and the
`top_files` handling of `src/config.rs`), together with proofs settling
the frozen claims about it.

Modelling conventions:
* The filesystem is a value of the inductive type `Entry`: regular files and
  directories carry the sizes `std::fs::metadata` reports (a directory's
  `len()` is its on-disk metadata size, e.g. 4096 on ext4); a symlink carries
  its own `len()` and an optional resolved target (`TargetOpt.none` is a
  broken link).  `Entry.ioErr` stands for a directory entry whose enumeration
  yields `Err(_)` in `walkdir`; `Entry.statErr` for an entry that enumerates
  fine but whose `std::fs::metadata` and `std::fs::symlink_metadata` both
  fail.  Symlink chains (a link to a link) are not modelled.
* Machine integers (`u64`, `usize`) are modelled as `Nat`: the sizes and
  counts involved never overflow in the algorithms under study, which only
  add and compare them.
* `glob::Pattern` is external to the repository; a pattern is modelled
  extensionally as the boolean matcher the filter code calls
  (`Pattern::matches_path` on the full path string and `Pattern::matches`
  on the file name are the same string matcher applied to two strings).
* Rust's `slice::sort_by` is a stable comparison sort; it is modelled by the
  stable insertion sort `stableSortBy (leOfCmp cmp)` with
  `le a b := cmp a b ≠ Ordering.gt`, which satisfies the same stable-sort
  specification and therefore computes the same list.
* Each walker level enumerates with a fresh `WalkDir::new(path)` rooted at
  the entry's own path, and `walkdir` always follows a root symlink to a
  directory (`follow_root_links` defaults to `true`): a symlinked
  directory's target entries are therefore enumerated under *both* values of
  `follow_links`, which only changes the treatment of symlinks met inside
  that one-level enumeration (broken links yield `Err` when following) and
  what `DirEntry::metadata` reads.
* The materialized walker (`walker.rs`) recurses along the structure of the
  filesystem value and is defined by structural recursion.  The streaming
  walker (`streaming.rs`) recurses into a *sorted* sibling list, so it is
  defined with an explicit `fuel` bound on the recursion depth; for
  `entryHeight e ≤ fuel` it coincides with the source's unbounded recursion.
  The per-node callback of `walk_streaming` is reified as the list of the
  `StreamNode` values passed to it, in invocation order.
* `TreeStats.scan_duration` (wall-clock time) and the `f64` percentage of
  `FileTypeInfo` are omitted: real time and floating point are outside the
  embedding; no claim under study depends on them.  `files_by_extension` is
  a `HashMap` in the source; it is modelled as an association list with the
  `entry().or_insert()` update semantics, and all statements about it go
  through lookups, which are insertion-order independent.
-/

namespace RustTree

/-- `FsNodeType` from `models.rs`: classification of a node. -/
inductive FsNodeType where
  | file
  | directory
  | symlink
deriving Repr, DecidableEq

/-- `TreeError` from `models.rs` (the `Io` payload and the error strings are
not modelled; `Json`/`Other` never arise in the walkers). -/
inductive TreeError where
  | ioError
  | pathNotFound (path : String)
  | notADirectory (path : String)
  | permissionDenied (path : String)
deriving Repr, DecidableEq

/-- The part of `std::fs::Metadata` the code reads: `is_symlink()`,
`is_dir()`, `len()`. -/
structure Metadata where
  isSymlink : Bool
  isDir : Bool
  len : Nat
deriving Repr, DecidableEq

/-- A compiled `glob::Pattern`, modelled extensionally by the string matcher
both `matches_path` (applied to the full path rendered as a string) and
`matches` (applied to the file name) evaluate. -/
structure GlobPattern where
  matchesStr : String → Bool

/-- The two views of a candidate path that `FilterConfig::should_exclude`
reads: the full path (as matched by `Pattern::matches_path`) and
`path.file_name()` (None for paths like `/` or `a/..`). -/
structure EntryPath where
  full : String
  fileName : Option String

/-- `str::starts_with(c)` with a `char` pattern (as in
`name_str.starts_with('.')`). -/
def startsWithChar (c : Char) (s : String) : Bool :=
  match s.data with
  | [] => false
  | a :: _ => a == c

/-- `Ord::cmp` on two values of a decidable linear order, written out by
trichotomy. -/
def charCmp (a b : Char) : Ordering :=
  if a < b then .lt else if b < a then .gt else .eq

/-- `Ord::cmp` on `u64`/`usize` (as `Nat`). -/
def natCmp (a b : Nat) : Ordering :=
  if a < b then .lt else if b < a then .gt else .eq

/-- Lexicographic comparison of character lists. -/
def listCmp : List Char → List Char → Ordering
  | [], [] => .eq
  | [], _ :: _ => .lt
  | _ :: _, [] => .gt
  | a :: as, b :: bs =>
      match charCmp a b with
      | .eq => listCmp as bs
      | o => o

/-- `Ord::cmp` on Rust strings: byte-lexicographic, which on UTF-8 data is
codepoint-lexicographic, i.e. lexicographic on the character list. -/
def strCmp (a b : String) : Ordering := listCmp a.data b.data

/-- `rsplit('.').next()`: the text after the last `.` (the whole string
when there is no `.`). -/
def afterLastDot (s : String) : List Char :=
  (s.data.reverse.takeWhile (fun c => c != '.')).reverse

/-- `FilterConfig` from `filter.rs`. -/
structure FilterConfig where
  excludePatterns : List GlobPattern
  includePattern : Option GlobPattern
  excludeHidden : Bool

/-- `FilterConfig::should_exclude` from `filter.rs`, with the source's
evaluation order: hidden-name check, then the exclude-pattern loop (the loop
returns on the first pattern matching the full path or the file name, which
is `List.any`), then the include-pattern check.  Pure: a function of the
config and the path only. -/
def FilterConfig.shouldExclude (cfg : FilterConfig) (p : EntryPath) : Bool :=
  if cfg.excludeHidden &&
      (match p.fileName with
       | some n => startsWithChar '.' n
       | none => false) then
    true
  else if cfg.excludePatterns.any (fun pat =>
      pat.matchesStr p.full ||
      (match p.fileName with
       | some n => pat.matchesStr n
       | none => false)) then
    true
  else
    match cfg.includePattern with
    | some pat =>
        if pat.matchesStr p.full then false
        else
          match p.fileName with
          | some n => !pat.matchesStr n
          | none => false
    | none => false

/-- `SortField` from `walker.rs` (`Name`, `Size`, `Type`; the last is spelt
`fileType` because `Type` is not usable as a Lean constructor name). -/
inductive SortField where
  | name
  | size
  | fileType
deriving Repr, DecidableEq

/-- `WalkConfig` from `walker.rs`. -/
structure WalkConfig where
  maxDepth : Nat
  showHidden : Bool
  followSymlinks : Bool
  sortBy : SortField
  reverse : Bool
  filter : FilterConfig

/-- `StreamConfig` from `streaming.rs` (same fields as `WalkConfig`). -/
structure StreamConfig where
  maxDepth : Nat
  showHidden : Bool
  followSymlinks : Bool
  sortBy : SortField
  reverse : Bool
  filter : FilterConfig

/-- The `StreamConfig` with the same field values as a `WalkConfig`
(how `run_streaming` in `lib.rs` builds it). -/
def WalkConfig.toStreamConfig (cfg : WalkConfig) : StreamConfig :=
  ⟨cfg.maxDepth, cfg.showHidden, cfg.followSymlinks, cfg.sortBy, cfg.reverse, cfg.filter⟩

mutual
/-- One existing filesystem object, or a failing directory-entry slot (see
the module comment). -/
inductive Entry where
  | file (name : String) (size : Nat)
  | dir (name : String) (dirSize : Nat) (entries : EntryList)
  | symlink (name : String) (linkSize : Nat) (target : TargetOpt)
  | ioErr
  | statErr (name : String)
/-- What a symlink resolves to: nothing (broken), a file, or a directory. -/
inductive TargetOpt where
  | none
  | tfile (size : Nat)
  | tdir (dirSize : Nat) (entries : EntryList)
/-- A directory's entry list (a mutual-block rendering of `List Entry`). -/
inductive EntryList where
  | nil
  | cons (e : Entry) (rest : EntryList)
end

/-- The entry's file name (`ioErr` slots are skipped before any name is
read; `""` mirrors `unwrap_or("")` in `walk_recursive`). -/
def Entry.nameD : Entry → String
  | .file n _ => n
  | .dir n _ _ => n
  | .symlink n _ _ => n
  | .ioErr => ""
  | .statErr n => n

/-- Whether enumerating this slot yields `Err(_)` unconditionally. -/
def Entry.isIoErr : Entry → Bool
  | .ioErr => true
  | _ => false

/-- A symlink with no resolvable target. -/
def Entry.isBrokenSymlink : Entry → Bool
  | .symlink _ _ .none => true
  | _ => false

/-- `std::fs::metadata` (follows symlinks): fails on broken symlinks and on
`statErr`/`ioErr` slots. -/
def followedMeta : Entry → Option Metadata
  | .file _ s => some ⟨false, false, s⟩
  | .dir _ ds _ => some ⟨false, true, ds⟩
  | .symlink _ _ .none => none
  | .symlink _ _ (.tfile s) => some ⟨false, false, s⟩
  | .symlink _ _ (.tdir ds _) => some ⟨false, true, ds⟩
  | .ioErr => none
  | .statErr _ => none

/-- `std::fs::symlink_metadata` (does not follow). -/
def symlinkMeta : Entry → Option Metadata
  | .file _ s => some ⟨false, false, s⟩
  | .dir _ ds _ => some ⟨false, true, ds⟩
  | .symlink _ ls _ => some ⟨true, false, ls⟩
  | .ioErr => none
  | .statErr _ => none

/-- `std::fs::metadata(path).or_else(|_| std::fs::symlink_metadata(path))`,
the metadata fetch of `walk_recursive` and of the streaming emission loop. -/
def statMeta (e : Entry) : Option Metadata :=
  match followedMeta e with
  | some m => some m
  | none => symlinkMeta e

/-- The classification of `walk_recursive` / `walk_recursive_streaming`:
symlink before directory before file. -/
def nodeTypeOf (m : Metadata) : FsNodeType :=
  if m.isSymlink then .symlink
  else if m.isDir then .directory
  else .file

def EntryList.toList : EntryList → List Entry
  | .nil => []
  | .cons e rest => e :: rest.toList

/-- The `Ok(entry)` items of a one-level `WalkDir::new(path).min_depth(1)
.max_depth(1).follow_links(follow)` enumeration: the directory's entries (a
symlinked directory is enumerated under both flag values, since `walkdir`
always follows a *root* symlink — `follow_root_links` defaults to `true`;
`WalkDir` on a file or broken link yields nothing at depth 1), minus the
items `walkdir` reports as `Err(_)`: `ioErr` slots always, broken symlinks
when following. -/
def enumEntries (e : Entry) (follow : Bool) : List Entry :=
  (match e with
   | .dir _ _ es => es.toList
   | .symlink _ _ (.tdir _ es) => es.toList
   | _ => []).filter
    (fun c => !c.isIoErr && !(follow && c.isBrokenSymlink))

mutual
/-- Depth of the deepest enumerable directory nesting under an entry; fuel
bound for the streaming walker. -/
def entryHeight : Entry → Nat
  | .file _ _ => 0
  | .dir _ _ es => 1 + entryListHeight es
  | .symlink _ _ t => targetHeight t
  | .ioErr => 0
  | .statErr _ => 0
def targetHeight : TargetOpt → Nat
  | .none => 0
  | .tfile _ => 0
  | .tdir _ es => 1 + entryListHeight es
def entryListHeight : EntryList → Nat
  | .nil => 0
  | .cons e rest => max (entryHeight e) (entryListHeight rest)
end

mutual
/-- No `statErr` slot anywhere: every enumerated entry's metadata is
readable (broken symlinks and `ioErr` slots are still allowed). -/
def Entry.clean : Entry → Bool
  | .file _ _ => true
  | .dir _ _ es => es.clean
  | .symlink _ _ t => t.clean
  | .ioErr => true
  | .statErr _ => false
def TargetOpt.clean : TargetOpt → Bool
  | .none => true
  | .tfile _ => true
  | .tdir _ es => es.clean
def EntryList.clean : EntryList → Bool
  | .nil => true
  | .cons e rest => e.clean && rest.clean
end

/-! ## Stable sorting

Rust's `slice::sort_by(c)` is a stable comparison sort: its output is
ordered by `le a b := c a b ≠ Greater` and elements the comparator does not
strictly order keep their input order.  For a total, transitive `le` that
output is unique, so the stable insertion sort below computes it. -/

/-- `le a b`: the comparator does not place `a` strictly after `b`. -/
def leOfCmp (cmp : α → α → Ordering) (a b : α) : Bool :=
  cmp a b != Ordering.gt

/-- Insert `x` before the first element it is `le` to (stability: `x`, which
preceded the list's elements in the input, stays before elements it ties
with). -/
def sortedInsert (le : α → α → Bool) (x : α) : List α → List α
  | [] => [x]
  | y :: ys => if le x y then x :: y :: ys else y :: sortedInsert le x ys

/-- Stable insertion sort. -/
def stableSortBy (le : α → α → Bool) : List α → List α
  | [] => []
  | x :: xs => sortedInsert le x (stableSortBy le xs)

/-! ## The tree data model (`models.rs`) -/

mutual
/-- `FsNode` from `models.rs`.  `path` is `Option<PathBuf>` in the source but
`FsNode::new` always stores `Some(path)`, so it is modelled as the path
string.  `children : Option<Vec<FsNode>>` is rendered by the mutual types
`FsChildren`/`FsForest` (Lean's nested `Option (List FsNode)` does not
support the structural recursion the proofs need). -/
inductive FsNode where
  | mk (name : String) (path : String) (nodeType : FsNodeType) (size : Nat)
      (depth : Nat) (children : FsChildren)
/-- `Option<Vec<FsNode>>`: `none` for absent children. -/
inductive FsChildren where
  | none
  | some (forest : FsForest)
/-- `Vec<FsNode>`: an ordered child list. -/
inductive FsForest where
  | nil
  | cons (n : FsNode) (rest : FsForest)
end

def FsNode.name : FsNode → String
  | .mk n _ _ _ _ _ => n

def FsNode.path : FsNode → String
  | .mk _ p _ _ _ _ => p

def FsNode.nodeType : FsNode → FsNodeType
  | .mk _ _ t _ _ _ => t

def FsNode.size : FsNode → Nat
  | .mk _ _ _ s _ _ => s

def FsNode.depth : FsNode → Nat
  | .mk _ _ _ _ d _ => d

def FsNode.children : FsNode → FsChildren
  | .mk _ _ _ _ _ c => c

/-- `FsNode::is_directory`. -/
def FsNode.isDirectory (n : FsNode) : Bool := n.nodeType == .directory

/-- `FsNode::is_file`. -/
def FsNode.isFile (n : FsNode) : Bool := n.nodeType == .file

/-- `FsNode::is_symlink`. -/
def FsNode.isSymlink (n : FsNode) : Bool := n.nodeType == .symlink

def FsForest.ofList : List FsNode → FsForest
  | [] => .nil
  | n :: rest => .cons n (FsForest.ofList rest)

def FsForest.toList : FsForest → List FsNode
  | .nil => []
  | .cons n rest => n :: rest.toList

def FsForest.isNil : FsForest → Bool
  | .nil => true
  | .cons _ _ => false

/-- The node's child list (empty when `children` is `none`). -/
def FsNode.childrenList (n : FsNode) : List FsNode :=
  match n.children with
  | .none => []
  | .some f => f.toList

/-- `if entries.is_empty() { None } else { Some(entries) }` of
`walk_recursive`. -/
def childrenOfList (l : List FsNode) : FsChildren :=
  if l.isEmpty then .none else .some (FsForest.ofList l)

/-- `FsNode::extension` from `models.rs`: `None` for directories; otherwise
the text after the last `.` of the name, prefixed with `.`, provided it is
non-empty and the name contains a dot (`rsplit('.').next()` is the last
`splitOn "."` fragment). -/
def FsNode.extension (n : FsNode) : Option String :=
  if n.isDirectory then none
  else
    let last := afterLastDot n.name
    if !last.isEmpty && n.name.data.contains '.' then some ⟨'.' :: last⟩ else none

/-- `FsTree` from `models.rs`. -/
structure FsTree where
  root : FsNode
  maxDepth : Nat

mutual
/-- `calculate_max_depth` from `walker.rs`: deepest `depth` in the subtree. -/
def calculateMaxDepth : FsNode → Nat
  | .mk _ _ _ _ d c => max d (maxDepthChildren c)
def maxDepthChildren : FsChildren → Nat
  | .none => 0
  | .some f => maxDepthForest f
def maxDepthForest : FsForest → Nat
  | .nil => 0
  | .cons n rest => max (calculateMaxDepth n) (maxDepthForest rest)
end

/-! ## Comparators and `sort_entries` -/

/-- `sort_entries` from `walker.rs`, `SortField::Name` comparator:
directories first, then by name. -/
def cmpName (a b : FsNode) : Ordering :=
  if a.isDirectory && !b.isDirectory then .lt
  else if !a.isDirectory && b.isDirectory then .gt
  else strCmp a.name b.name

/-- `sort_entries` from `walker.rs`, `SortField::Size` comparator:
directories first, then by size descending (`b.size.cmp(&a.size)`). -/
def cmpSize (a b : FsNode) : Ordering :=
  if a.isDirectory && !b.isDirectory then .lt
  else if !a.isDirectory && b.isDirectory then .gt
  else natCmp b.size a.size

/-- `sort_entries` from `walker.rs`, `SortField::Type` comparator:
directories first, then by extension (`unwrap_or_default`), then by name. -/
def cmpType (a b : FsNode) : Ordering :=
  if a.isDirectory && !b.isDirectory then .lt
  else if !a.isDirectory && b.isDirectory then .gt
  else (strCmp (a.extension.getD "") (b.extension.getD "")).then
        (strCmp a.name b.name)

/-- `sort_entries` from `walker.rs`: stable sort by the chosen comparator,
then `entries.reverse()` when `config.reverse` is set. -/
def sortEntries (entries : List FsNode) (cfg : WalkConfig) : List FsNode :=
  let sorted :=
    match cfg.sortBy with
    | .name => stableSortBy (leOfCmp cmpName) entries
    | .size => stableSortBy (leOfCmp cmpSize) entries
    | .fileType => stableSortBy (leOfCmp cmpType) entries
  if cfg.reverse then sorted.reverse else sorted

/-- `Path::is_dir()` of a directory entry's path (follows symlinks). -/
def Entry.pathIsDir (e : Entry) : Bool :=
  match followedMeta e with
  | some m => m.isDir
  | none => false

/-- `walkdir::DirEntry::metadata().map(|m| m.len()).unwrap_or(0)`: follows
the link iff the walker was built with `follow_links(true)`. -/
def dirEntryLen (follow : Bool) (e : Entry) : Nat :=
  match (if follow then followedMeta e else symlinkMeta e) with
  | some m => m.len
  | none => 0

/-- `std::path::Path::extension()` of a file name: the portion after the
final `.`; `None` when there is no `.`, or when the name begins with `.`
and has no other `.`. -/
def pathExtension (name : String) : Option String :=
  if !name.data.contains '.' then none
  else if startsWithChar '.' name && !(name.data.tail.contains '.') then none
  else some ⟨afterLastDot name⟩

/-- `sort_entries` from `streaming.rs`, `SortField::Name` comparator. -/
def scmpName (a b : Entry) : Ordering :=
  if a.pathIsDir && !b.pathIsDir then .lt
  else if !a.pathIsDir && b.pathIsDir then .gt
  else strCmp a.nameD b.nameD

/-- `sort_entries` from `streaming.rs`, `SortField::Size` comparator
(sizes via `DirEntry::metadata`, which does not follow links unless the
walker follows). -/
def scmpSize (follow : Bool) (a b : Entry) : Ordering :=
  if a.pathIsDir && !b.pathIsDir then .lt
  else if !a.pathIsDir && b.pathIsDir then .gt
  else natCmp (dirEntryLen follow b) (dirEntryLen follow a)

/-- `sort_entries` from `streaming.rs`, `SortField::Type` comparator
(extensions via `Path::extension`, `unwrap_or("")`). -/
def scmpType (a b : Entry) : Ordering :=
  if a.pathIsDir && !b.pathIsDir then .lt
  else if !a.pathIsDir && b.pathIsDir then .gt
  else (strCmp ((pathExtension a.nameD).getD "") ((pathExtension b.nameD).getD "")).then
        (strCmp a.nameD b.nameD)

/-- `sort_entries` from `streaming.rs`: stable sort by the chosen
comparator.  Unlike the walker's `sort_entries`, the streaming version has
no `reverse` step — `config.reverse` is ignored. -/
def sortEntriesStream (entries : List Entry) (cfg : StreamConfig) : List Entry :=
  match cfg.sortBy with
  | .name => stableSortBy (leOfCmp scmpName) entries
  | .size => stableSortBy (leOfCmp (scmpSize cfg.followSymlinks)) entries
  | .fileType => stableSortBy (leOfCmp scmpType) entries

/-! ## The materialized walker (`walker.rs`) -/

mutual
/-- `walk_recursive` from `walker.rs`: classify via
`metadata().or_else(symlink_metadata)` (`none` models the `?` failure, which
the caller skips), and for directories below the depth limit collect, sort
and attach the surviving children. -/
def walkNode : Entry → String → Nat → WalkConfig → Option FsNode
  | .file n s, path, depth, _ => some (.mk n path .file s depth .none)
  | .dir n ds es, path, depth, cfg =>
      some (.mk n path .directory ds depth
        (if cfg.maxDepth > 0 && depth ≥ cfg.maxDepth then .none
         else childrenOfList (sortEntries (walkForest es path (depth + 1) cfg) cfg)))
  | .symlink n ls .none, path, depth, _ => some (.mk n path .symlink ls depth .none)
  | .symlink n _ (.tfile s), path, depth, _ => some (.mk n path .file s depth .none)
  | .symlink n _ (.tdir ds es), path, depth, cfg =>
      some (.mk n path .directory ds depth
        (if cfg.maxDepth > 0 && depth ≥ cfg.maxDepth then .none
         else childrenOfList (sortEntries (walkForest es path (depth + 1) cfg) cfg)))
  | .ioErr, _, _, _ => none
  | .statErr _, _, _, _ => none
/-- The enumeration loop of `collect_children` from `walker.rs`: skip
`Err(_)` items (`ioErr`; broken symlinks when following), skip filtered
entries, skip entries whose recursive walk fails; keep the rest in
enumeration order (the caller sorts). -/
def walkForest : EntryList → String → Nat → WalkConfig → List FsNode
  | .nil, _, _, _ => []
  | .cons c rest, parent, depth, cfg =>
      (if c.isIoErr || (cfg.followSymlinks && c.isBrokenSymlink) then []
       else if cfg.filter.shouldExclude ⟨parent ++ "/" ++ c.nameD, some c.nameD⟩ then []
       else
         match walkNode c (parent ++ "/" ++ c.nameD) depth cfg with
         | some node => [node]
         | none => []) ++ walkForest rest parent depth cfg
end

/-- `walk_directory` from `walker.rs`: `PathNotFound` when the root does not
exist (`Path::exists` follows symlinks, i.e. checks `std::fs::metadata`),
`NotADirectory` when its metadata is not a directory, otherwise the tree
with `calculate_max_depth`.  A nonexistent root is the `none` argument; the
`ioError` arm models the `?` on `walk_recursive` and is unreachable once
the root's metadata resolved. -/
def walkDirectory (root : Option Entry) (rootPath : String) (cfg : WalkConfig) :
    Except TreeError FsTree :=
  match root with
  | none => .error (.pathNotFound rootPath)
  | some e =>
      match followedMeta e with
      | none => .error (.pathNotFound rootPath)
      | some m =>
          if !m.isDir then .error (.notADirectory rootPath)
          else
            match walkNode e rootPath 0 cfg with
            | some rootNode => .ok ⟨rootNode, calculateMaxDepth rootNode⟩
            | none => .error .ioError

/-! ## The streaming walker (`streaming.rs`) -/

/-- `StreamNode` from `streaming.rs`. -/
structure StreamNode where
  name : String
  path : String
  nodeType : FsNodeType
  size : Nat
  depth : Nat
  hasChildren : Bool
  isLast : Bool
deriving Repr, DecidableEq

/-- `has_children` from `streaming.rs`: a one-level probe for any
enumerable, non-filtered entry. -/
def hasChildrenProbe (e : Entry) (path : String) (cfg : StreamConfig) : Bool :=
  (enumEntries e cfg.followSymlinks).any
    (fun c => !cfg.filter.shouldExclude ⟨path ++ "/" ++ c.nameD, some c.nameD⟩)

/-- The emission loop of `walk_recursive_streaming`: for each sorted entry,
fetch metadata (`continue` on failure), emit the `StreamNode` (`is_last`
is `i == total - 1`, i.e. the rest of the loop is empty), and recurse into
directory-classified entries via `recurse`. -/
def emitLoop (recurse : Entry → String → List StreamNode) (path : String)
    (depth : Nat) (cfg : StreamConfig) : List Entry → List StreamNode
  | [] => []
  | c :: rest =>
      (match statMeta c with
       | none => []
       | some m =>
          if nodeTypeOf m == .directory then
            { name := c.nameD, path := path ++ "/" ++ c.nameD, nodeType := nodeTypeOf m,
              size := m.len, depth := depth,
              hasChildren := hasChildrenProbe c (path ++ "/" ++ c.nameD) cfg,
              isLast := rest.isEmpty } :: recurse c (path ++ "/" ++ c.nameD)
          else
            [{ name := c.nameD, path := path ++ "/" ++ c.nameD, nodeType := nodeTypeOf m,
               size := m.len, depth := depth, hasChildren := false,
               isLast := rest.isEmpty }]) ++
      emitLoop recurse path depth cfg rest

/-- `walk_recursive_streaming` from `streaming.rs`, with an explicit `fuel`
bound on the recursion depth (the definition agrees with the source
whenever `entryHeight e ≤ fuel`): depth-limit guard, enumerate and filter
one level, sort it, then run the emission loop, recursing with `fuel - 1`.
The result is the list of callback invocations, in order. -/
def streamChildren : Nat → Entry → String → Nat → StreamConfig → List StreamNode
  | 0, _, _, _, _ => []
  | fuel + 1, e, path, depth, cfg =>
      if cfg.maxDepth > 0 && depth > cfg.maxDepth then []
      else
        emitLoop (fun c cp => streamChildren fuel c cp (depth + 1) cfg)
          path depth cfg
          (sortEntriesStream
            ((enumEntries e cfg.followSymlinks).filter
              (fun c => !cfg.filter.shouldExclude ⟨path ++ "/" ++ c.nameD, some c.nameD⟩))
            cfg)

/-- `walk_streaming` from `streaming.rs`: the same root validation as
`walk_directory`, then the recursion started at depth 0; the emitted
sequence is returned. -/
def walkStreaming (fuel : Nat) (root : Option Entry) (rootPath : String)
    (cfg : StreamConfig) : Except TreeError (List StreamNode) :=
  match root with
  | none => .error (.pathNotFound rootPath)
  | some e =>
      match followedMeta e with
      | none => .error (.pathNotFound rootPath)
      | some m =>
          if !m.isDir then .error (.notADirectory rootPath)
          else .ok (streamChildren fuel e rootPath 0 cfg)

/-! ## The statistics collector (`collector.rs`) -/

/-- `FileEntry` from `models.rs`. -/
structure FileEntry where
  name : String
  path : String
  size : Nat
deriving Repr, DecidableEq

/-- The accumulating state of `count_nodes`: the counter fields of
`TreeStats` plus the `all_files` vector (in depth-first discovery order). -/
structure StatsAcc where
  totalFiles : Nat
  totalDirectories : Nat
  totalSymlinks : Nat
  totalSize : Nat
  allFiles : List FsNode

mutual
/-- `count_nodes` from `collector.rs`: bump the counter for the node's kind
(files also add their size and are recorded), then recurse into the
children, if any. -/
def countNode : FsNode → StatsAcc → StatsAcc
  | .mk n p t s d c, acc =>
      let acc :=
        match t with
        | .directory => { acc with totalDirectories := acc.totalDirectories + 1 }
        | .file =>
            { acc with totalFiles := acc.totalFiles + 1,
                       totalSize := acc.totalSize + s,
                       allFiles := acc.allFiles ++ [.mk n p t s d c] }
        | .symlink => { acc with totalSymlinks := acc.totalSymlinks + 1 }
      countChildren c acc
def countChildren : FsChildren → StatsAcc → StatsAcc
  | .none, acc => acc
  | .some f, acc => countForestAcc f acc
def countForestAcc : FsForest → StatsAcc → StatsAcc
  | .nil, acc => acc
  | .cons n rest, acc => countForestAcc rest (countNode n acc)
end

/-- The extension bucket key: `file.extension().unwrap_or_else(|| "(no
extension)")` in `analyze_by_extension`. -/
def extKey (n : FsNode) : String := (n.extension).getD "(no extension)"

/-- The `by_ext.entry(ext).or_insert((0,0)); count += 1; size += file.size`
update of `analyze_by_extension`, on the association-list model of the
`HashMap`. -/
def bump : List (String × Nat × Nat) → String → Nat → List (String × Nat × Nat)
  | [], k, sz => [(k, 1, sz)]
  | (k', c, s) :: rest, k, sz =>
      if k' = k then (k', c + 1, s + sz) :: rest
      else (k', c, s) :: bump rest k sz

/-- `analyze_by_extension` from `collector.rs` (the per-bucket `(count,
total_size)` map; the `f64` percentage of the final `FileTypeInfo` is not
modelled). -/
def analyzeByExtension (files : List FsNode) : List (String × Nat × Nat) :=
  files.foldl (fun m f => bump m (extKey f) f.size) []

/-- Lookup in the association-list model of the extension map. -/
def lookupExt (m : List (String × Nat × Nat)) (k : String) : Option (Nat × Nat) :=
  match m with
  | [] => none
  | (k', c, s) :: rest => if k' = k then some (c, s) else lookupExt rest k

/-- `find_largest_files` from `collector.rs`: early-out on no files, build
`FileEntry` values, stable-sort by size descending
(`b.size.cmp(&a.size)`), truncate to `limit`. -/
def findLargestFiles (files : List FsNode) (limit : Nat) : List FileEntry :=
  if files.isEmpty then []
  else
    ((stableSortBy (leOfCmp (fun a b : FileEntry => natCmp b.size a.size))
      (files.map (fun f => FileEntry.mk f.name f.path f.size)))).take limit

/-- `DEFAULT_MAX_LARGEST` from `collector.rs`. -/
def DEFAULT_MAX_LARGEST : Nat := 10

/-- `TreeStats` from `models.rs` (without `scan_duration`, and with the
extension map as an association list; see the module comment). -/
structure TreeStats where
  totalFiles : Nat
  totalDirectories : Nat
  totalSymlinks : Nat
  totalSize : Nat
  filesByExtension : List (String × Nat × Nat)
  largestFiles : List FileEntry

/-- `collect_stats` from `collector.rs` (the wall-clock `scan_duration` is
not modelled). -/
def collectStats (tree : FsTree) : TreeStats :=
  let acc := countNode tree.root ⟨0, 0, 0, 0, []⟩
  { totalFiles := acc.totalFiles,
    totalDirectories := acc.totalDirectories,
    totalSymlinks := acc.totalSymlinks,
    totalSize := acc.totalSize,
    filesByExtension := analyzeByExtension acc.allFiles,
    largestFiles := findLargestFiles acc.allFiles DEFAULT_MAX_LARGEST }

mutual
/-- `count_nodes_recursive` from `collector.rs`: the node plus all
descendants. -/
def countNodesRecursive : FsNode → Nat
  | .mk _ _ _ _ _ c => 1 + countNodesChildren c
def countNodesChildren : FsChildren → Nat
  | .none => 0
  | .some f => countNodesForest f
def countNodesForest : FsForest → Nat
  | .nil => 0
  | .cons n rest => countNodesRecursive n + countNodesForest rest
end

/-- `total_node_count` from `collector.rs`. -/
def totalNodeCount (tree : FsTree) : Nat := countNodesRecursive tree.root

/-- `Config::top_files_count` from `config.rs`: `self.top_files.max(1)` —
the CLI's largest-files limit with its minimum of 1 enforced. -/
def topFilesCount (topFiles : Nat) : Nat := max topFiles 1

/-! ## Observation sequences -/

mutual
/-- The depth-first, parent-before-children `(name, depth, is_last)` listing
of a subtree, `is_last` marking the final sibling at each level. -/
def seqNode : FsNode → Bool → List (String × Nat × Bool)
  | .mk n _ _ _ d c, isLast => (n, d, isLast) :: seqChildren c
def seqChildren : FsChildren → List (String × Nat × Bool)
  | .none => []
  | .some f => seqForest f
def seqForest : FsForest → List (String × Nat × Bool)
  | .nil => []
  | .cons n rest => seqNode n rest.isNil ++ seqForest rest
end

/-- The `(name, depth, is_last)` view of a stream emission. -/
def streamTuples (l : List StreamNode) : List (String × Nat × Bool) :=
  l.map (fun s => (s.name, s.depth, s.isLast))

/-- Decrement every depth by one (the streaming walker emits the root's
children at depth 0 where the materialized tree stores depth 1). -/
def shiftTuples (l : List (String × Nat × Bool)) : List (String × Nat × Bool) :=
  l.map (fun t => (t.1, t.2.1 - 1, t.2.2))

/-! ## Helper definitions for the statements -/

instance : Inhabited FsNode := ⟨.mk "" "" .file 0 0 .none⟩

/-- The sibling `FsNode` list one walker level produces for an entry before
sorting: what `collect_children` (minus the final `sort_entries`) computes
for the directory the entry stands for.  Matches the children computation
inside `walkNode` case by case. -/
def walkKids (e : Entry) (path : String) (depth : Nat) (cfg : WalkConfig) :
    List FsNode :=
  match e with
  | .dir _ _ es => walkForest es path depth cfg
  | .symlink _ _ (.tdir _ es) => walkForest es path depth cfg
  | _ => []

/-- Sum of the per-element node counts. -/
def listNodeCount (l : List FsNode) : Nat := (l.map countNodesRecursive).sum

/-- `total_files + total_directories + total_symlinks` of collected stats. -/
def statsSum (st : TreeStats) : Nat :=
  st.totalFiles + st.totalDirectories + st.totalSymlinks

/-- The running counters' sum in a `StatsAcc`. -/
def accSum (acc : StatsAcc) : Nat :=
  acc.totalFiles + acc.totalDirectories + acc.totalSymlinks

/-- Every element marked `isDir` precedes every element not so marked. -/
def dirsBeforeFiles (isDir : α → Bool) : List α → Bool
  | [] => true
  | x :: xs => (isDir x || xs.all (fun y => !isDir y)) && dirsBeforeFiles isDir xs

/-- The generic shape of all six sibling comparators: directories first,
then the field comparison (each comparator below is definitionally an
instance of this shape). -/
def dirFirstCmp (isDir : α → Bool) (key : α → α → Ordering) (a b : α) : Ordering :=
  if isDir a && !isDir b then .lt
  else if !isDir a && isDir b then .gt
  else key a b

mutual
/-- Every node classified `symlink` in the subtree is a leaf
(`children = none`). -/
def symlinkLeafB : FsNode → Bool
  | .mk _ _ t _ _ c =>
      (!(t == FsNodeType.symlink) ||
        (match c with
         | .none => true
         | .some _ => false)) && symlinkLeafChildren c
def symlinkLeafChildren : FsChildren → Bool
  | .none => true
  | .some f => symlinkLeafForest f
def symlinkLeafForest : FsForest → Bool
  | .nil => true
  | .cons n rest => symlinkLeafB n && symlinkLeafForest rest
end

/-- `symlinkLeafB` of the root of a walk result (vacuously true on error). -/
def resultSymlinkLeaf (r : Except TreeError FsTree) : Bool :=
  match r with
  | .ok t => symlinkLeafB t.root
  | .error _ => true

/-- The root node's `size` field of a walk result. -/
def resultRootSize (r : Except TreeError FsTree) : Option Nat :=
  match r with
  | .ok t => some t.root.size
  | .error _ => none

/-- The `(name, depth, is_last)` pre-order listing of a walk result. -/
def resultSeq (r : Except TreeError FsTree) : Option (List (String × Nat × Bool)) :=
  match r with
  | .ok t => some (seqNode t.root true)
  | .error _ => none

/-- The `(name, depth, is_last)` listing of a streaming result. -/
def resultStreamTuples (r : Except TreeError (List StreamNode)) :
    Option (List (String × Nat × Bool)) :=
  match r with
  | .ok l => some (streamTuples l)
  | .error _ => none

/-- The body of one emission-loop step (the `StreamNode` built for one
sorted entry, followed by the recursion into it when it is
directory-classified); `emitLoop` on a `cons` is this block appended to the
rest of the loop. -/
def emitOne (recurse : Entry → String → List StreamNode) (path : String)
    (depth : Nat) (cfg : StreamConfig) (c : Entry) (isLast : Bool) :
    List StreamNode :=
  match statMeta c with
  | none => []
  | some m =>
      if nodeTypeOf m == .directory then
        { name := c.nameD, path := path ++ "/" ++ c.nameD, nodeType := nodeTypeOf m,
          size := m.len, depth := depth,
          hasChildren := hasChildrenProbe c (path ++ "/" ++ c.nameD) cfg,
          isLast := isLast } :: recurse c (path ++ "/" ++ c.nameD)
      else
        [{ name := c.nameD, path := path ++ "/" ++ c.nameD, nodeType := nodeTypeOf m,
           size := m.len, depth := depth, hasChildren := false,
           isLast := isLast }]

/-- One emission level of the streaming walker: the `StreamNode`s the
emission loop produces for the entry's immediate surviving children,
without recursing (the loop run with a no-op recursion). -/
def streamLevel (e : Entry) (path : String) (depth : Nat) (cfg : StreamConfig) :
    List StreamNode :=
  emitLoop (fun _ _ => []) path depth cfg
    (sortEntriesStream
      ((enumEntries e cfg.followSymlinks).filter
        (fun c => !cfg.filter.shouldExclude ⟨path ++ "/" ++ c.nameD, some c.nameD⟩))
      cfg)

/-- The claim's formula for `should_exclude` (used to compare against the
source definition): (a) hidden, or (b) some exclude pattern matches the
full path or the base name, or (c) an include pattern is set and matches
neither. -/
def specExcluded (cfg : FilterConfig) (full name : String) : Bool :=
  (cfg.excludeHidden && startsWithChar '.' name) ||
  (cfg.excludePatterns.any (fun pat => pat.matchesStr full || pat.matchesStr name)) ||
  (match cfg.includePattern with
   | some pat => !(pat.matchesStr full || pat.matchesStr name)
   | none => false)

/-- The amended bucketing key of claim C8: `.` followed by the text after
the last dot when the name contains a dot *and* that text is non-empty;
the `"(no extension)"` sentinel otherwise (so also for names ending in a
dot, not only dotless names). -/
def extKeySpec (name : String) : String :=
  if name.data.contains '.' && !(afterLastDot name).isEmpty then
    String.mk ('.' :: afterLastDot name)
  else "(no extension)"

/-- A comparator whose `leOfCmp` relation is a total preorder: `swap`
antisymmetry plus the four transitivity shapes. -/
structure LawCmp (cmp : α → α → Ordering) : Prop where
  symm : ∀ a b, cmp a b = (cmp b a).swap
  lt_trans : ∀ {a b c}, cmp a b = .lt → cmp b c = .lt → cmp a c = .lt
  lt_of_lt_of_eq : ∀ {a b c}, cmp a b = .lt → cmp b c = .eq → cmp a c = .lt
  lt_of_eq_of_lt : ∀ {a b c}, cmp a b = .eq → cmp b c = .lt → cmp a c = .lt
  eq_trans : ∀ {a b c}, cmp a b = .eq → cmp b c = .eq → cmp a c = .eq

/-- The `all_files` vector `collect_stats` accumulates for a tree. -/
def allFilesOf (t : FsTree) : List FsNode :=
  (countNode t.root ⟨0, 0, 0, 0, []⟩).allFiles

/-- The `FileEntry` built from a file node in `find_largest_files`. -/
def toFileEntry (f : FsNode) : FileEntry := ⟨f.name, f.path, f.size⟩

/-- The `(count, total_size)` of an extension bucket, `(0, 0)` when the
bucket is absent. -/
def extCS (m : List (String × Nat × Nat)) (k : String) : Nat × Nat :=
  (lookupExt m k).getD (0, 0)

/-- Whether a walk result is `Ok`. -/
def resultIsOk (r : Except TreeError FsTree) : Bool :=
  match r with
  | .ok _ => true
  | .error _ => false

/-- Whether a streaming result is `Ok`. -/
def streamIsOk (r : Except TreeError (List StreamNode)) : Bool :=
  match r with
  | .ok _ => true
  | .error _ => false

/-! ## Fixtures for counterexamples and witnesses -/

/-- An empty filter: no patterns, hidden files kept. -/
def noFilter : FilterConfig := ⟨[], none, false⟩

/-- The `WalkConfig::default()` of `walker.rs`: unlimited depth, hidden
files excluded by `show_hidden = false` but with an empty filter here (the
filter field is what the claims exercise). -/
def cfgName : WalkConfig := ⟨0, false, false, .name, false, noFilter⟩

/-- `cfgName` with `reverse` set. -/
def cfgNameRev : WalkConfig := ⟨0, false, false, .name, true, noFilter⟩

/-- `cfgName` sorting by size. -/
def cfgSize : WalkConfig := ⟨0, false, false, .size, false, noFilter⟩

/-- Root directory with a single file `a`. -/
def fixSingle : Entry := .dir "r" 4096 (.cons (.file "a" 1) .nil)

/-- Root directory with files `a` and `b`. -/
def fixTwo : Entry := .dir "r" 0 (.cons (.file "a" 1) (.cons (.file "b" 2) .nil))

/-- Root with a symlink to a 100-byte file and a 50-byte file: the walker
sorts by the target's size, the streaming sort by the link's own
`symlink_metadata` size. -/
def fixSymSize : Entry :=
  .dir "r" 0 (.cons (.symlink "s" 1 (.tfile 100)) (.cons (.file "f" 50) .nil))

/-- Root with a file and a trailing entry whose metadata reads fail: the
streaming walker counts it in `total` (wrong `is_last` for `a`), the
materialized walker drops it before sorting. -/
def fixStatErr : Entry := .dir "r" 0 (.cons (.file "a" 1) (.cons (.statErr "z") .nil))

/-- Root with a subdirectory and a file (directory-grouping fixtures). -/
def fixDirFile : Entry := .dir "r" 0 (.cons (.file "f" 7) (.cons (.dir "d" 0 .nil) .nil))

/-- Root with three files of sizes 5, 3, 3 (named so discovery order and
name order differ for the tied pair). -/
def fixThree : Entry :=
  .dir "r" 0 (.cons (.file "c.txt" 3) (.cons (.file "b.txt" 5) (.cons (.file "a.txt" 3) .nil)))

/-- A file node named `foo.` (dot with empty suffix). -/
def nodeFooDot : FsNode := .mk "foo." "r/foo." .file 7 1 .none

/-- A broken symlink inside a directory (the only way a node is classified
`Symlink`). -/
def fixBroken : Entry := .dir "r" 0 (.cons (.symlink "s" 9 .none) .nil)

/-- Root with a symlink to a directory containing one file
(symlinked-directory descent fixture). -/
def fixSymDir : Entry :=
  .dir "r" 0 (.cons (.symlink "s" 1 (.tdir 0 (.cons (.file "a" 2) .nil))) .nil)

/-- `cfgName` with `follow_symlinks` set. -/
def cfgNameFollow : WalkConfig := ⟨0, false, true, .name, false, noFilter⟩

/-! ## Properties of the stable sort -/

theorem length_sortedInsert (le : α → α → Bool) (x : α) (l : List α) :
    (sortedInsert le x l).length = l.length + 1 := by
  induction l with
  | nil => rfl
  | cons y ys ih =>
      simp only [sortedInsert]
      by_cases h : le x y = true
      · simp [h]
      · simp [h, ih]

theorem length_stableSortBy (le : α → α → Bool) (l : List α) :
    (stableSortBy le l).length = l.length := by
  induction l with
  | nil => rfl
  | cons x xs ih => simp [stableSortBy, length_sortedInsert, ih]

theorem sortedInsert_perm (le : α → α → Bool) (x : α) (l : List α) :
    (sortedInsert le x l).Perm (x :: l) := by
  induction l with
  | nil => simp [sortedInsert]
  | cons y ys ih =>
      simp only [sortedInsert]
      by_cases h : le x y = true
      · simp [h]
      · simpa [h] using ((ih.cons y).trans (List.Perm.swap x y ys))

theorem stableSortBy_perm (le : α → α → Bool) (l : List α) :
    (stableSortBy le l).Perm l := by
  induction l with
  | nil => simp [stableSortBy]
  | cons x xs ih =>
      exact (sortedInsert_perm le x (stableSortBy le xs)).trans (ih.cons x)

theorem mem_sortedInsert (le : α → α → Bool) (x : α) (l : List α) (b : α) :
    b ∈ sortedInsert le x l ↔ b = x ∨ b ∈ l := by
  rw [(sortedInsert_perm le x l).mem_iff]
  simp

/-- Sortedness of the insertion sort, for a total transitive `le`. -/
theorem pairwise_sortedInsert (le : α → α → Bool)
    (total : ∀ a b, le a b || le b a)
    (trans : ∀ a b c, le a b = true → le b c = true → le a c = true)
    (x : α) (l : List α) (hl : l.Pairwise (fun a b => le a b = true)) :
    (sortedInsert le x l).Pairwise (fun a b => le a b = true) := by
  induction l with
  | nil => simp [sortedInsert]
  | cons y ys ih =>
      rw [List.pairwise_cons] at hl
      obtain ⟨hy, hys⟩ := hl
      simp only [sortedInsert]
      by_cases h : le x y = true
      · rw [if_pos h]
        refine List.Pairwise.cons ?_ (List.Pairwise.cons hy hys)
        intro b hb
        rcases List.mem_cons.mp hb with rfl | hb
        · exact h
        · exact trans x y b h (hy b hb)
      · have hyx : le y x = true := by
          have := total x y
          simp only [h, Bool.false_or] at this
          exact this
        simp only [if_neg h]
        refine List.Pairwise.cons ?_ (ih hys)
        intro b hb
        rcases (mem_sortedInsert le x ys b).mp hb with rfl | hb
        · exact hyx
        · exact hy b hb

theorem pairwise_stableSortBy (le : α → α → Bool)
    (total : ∀ a b, le a b || le b a)
    (trans : ∀ a b c, le a b = true → le b c = true → le a c = true)
    (l : List α) :
    (stableSortBy le l).Pairwise (fun a b => le a b = true) := by
  induction l with
  | nil => simp [stableSortBy]
  | cons x xs ih => exact pairwise_sortedInsert le total trans x _ ih

/-- The sort commutes with a map that preserves comparisons. -/
theorem sortedInsert_map (le : α → α → Bool) (gle : β → β → Bool) (g : α → β)
    (x : α) (l : List α)
    (hx : ∀ b ∈ l, gle (g x) (g b) = le x b) :
    sortedInsert gle (g x) (l.map g) = (sortedInsert le x l).map g := by
  induction l with
  | nil => rfl
  | cons y ys ih =>
      simp only [List.map_cons, sortedInsert]
      rw [hx y (by simp)]
      by_cases h : le x y = true
      · simp [h]
      · simp only [h, if_false]
        rw [ih (fun b hb => hx b (by simp [hb]))]
        simp

theorem stableSortBy_map (le : α → α → Bool) (gle : β → β → Bool) (g : α → β)
    (l : List α)
    (h : ∀ a ∈ l, ∀ b ∈ l, gle (g a) (g b) = le a b) :
    stableSortBy gle (l.map g) = (stableSortBy le l).map g := by
  induction l with
  | nil => rfl
  | cons x xs ih =>
      simp only [List.map_cons, stableSortBy]
      rw [ih (fun a ha b hb => h a (by simp [ha]) b (by simp [hb]))]
      exact sortedInsert_map le gle g x (stableSortBy le xs)
        (fun b hb =>
          h x (by simp) b
            (List.mem_cons_of_mem x ((stableSortBy_perm le xs).mem_iff.mp hb)))

/-! ## Lawfulness of the comparators -/

theorem LawCmp.le_total {cmp : α → α → Ordering} (h : LawCmp cmp) (a b : α) :
    leOfCmp cmp a b || leOfCmp cmp b a := by
  unfold leOfCmp
  cases hab : cmp a b with
  | lt => rfl
  | eq => rfl
  | gt =>
      have hs := h.symm a b
      rw [hab] at hs
      cases hba : cmp b a with
      | lt => rfl
      | eq => rw [hba] at hs; exact absurd hs (by decide)
      | gt => rw [hba] at hs; exact absurd hs (by decide)

theorem LawCmp.le_trans {cmp : α → α → Ordering} (h : LawCmp cmp) :
    ∀ a b c, leOfCmp cmp a b = true → leOfCmp cmp b c = true →
      leOfCmp cmp a c = true := by
  intro a b c hab hbc
  unfold leOfCmp at *
  cases h1 : cmp a b with
  | gt => rw [h1] at hab; exact absurd hab (by decide)
  | lt =>
      cases h2 : cmp b c with
      | gt => rw [h2] at hbc; exact absurd hbc (by decide)
      | lt => rw [h.lt_trans h1 h2]; rfl
      | eq => rw [h.lt_of_lt_of_eq h1 h2]; rfl
  | eq =>
      cases h2 : cmp b c with
      | gt => rw [h2] at hbc; exact absurd hbc (by decide)
      | lt => rw [h.lt_of_eq_of_lt h1 h2]; rfl
      | eq => rw [h.eq_trans h1 h2]; rfl

/-- Build a `LawCmp` when `eq` results characterize equality. -/
theorem lawCmp_of_eq_iff {cmp : α → α → Ordering}
    (hsymm : ∀ a b, cmp a b = (cmp b a).swap)
    (hlt : ∀ {a b c}, cmp a b = .lt → cmp b c = .lt → cmp a c = .lt)
    (heq : ∀ a b, cmp a b = .eq ↔ a = b) : LawCmp cmp := by
  refine ⟨hsymm, hlt, ?_, ?_, ?_⟩
  · intro a b c h1 h2
    rwa [(heq b c).mp h2] at h1
  · intro a b c h1 h2
    rwa [← (heq a b).mp h1] at h2
  · intro a b c h1 h2
    exact (heq a c).mpr (((heq a b).mp h1).trans ((heq b c).mp h2))

/-- Trichotomy comparators on a linear order are lawful. -/
theorem lawCmp_ofLinear {α : Type _} [LinearOrder α] (cmp : α → α → Ordering)
    (hlt : ∀ a b, cmp a b = .lt ↔ a < b)
    (heq : ∀ a b, cmp a b = .eq ↔ a = b)
    (hgt : ∀ a b, cmp a b = .gt ↔ b < a) : LawCmp cmp := by
  refine lawCmp_of_eq_iff ?_
    (fun h1 h2 => (hlt _ _).mpr (lt_trans ((hlt _ _).mp h1) ((hlt _ _).mp h2))) heq
  intro a b
  rcases lt_trichotomy a b with h | h | h
  · rw [(hlt a b).mpr h, (hgt b a).mpr h]; rfl
  · rw [(heq a b).mpr h, (heq b a).mpr h.symm]; rfl
  · rw [(hgt a b).mpr h, (hlt b a).mpr h]; rfl

theorem natCmp_eq_lt {a b : Nat} : natCmp a b = .lt ↔ a < b := by
  unfold natCmp; split_ifs with h1 h2 <;> simp [h1]

theorem natCmp_eq_eq {a b : Nat} : natCmp a b = .eq ↔ a = b := by
  unfold natCmp
  split_ifs with h1 h2
  · simp [ne_of_lt h1]
  · simp [(ne_of_gt h2)]
  · simp [le_antisymm (not_lt.mp h2) (not_lt.mp h1)]

theorem natCmp_eq_gt {a b : Nat} : natCmp a b = .gt ↔ b < a := by
  unfold natCmp
  split_ifs with h1 h2
  · simp [asymm h1]
  · simp [h2]
  · simp [h2]

theorem charCmp_eq_lt {a b : Char} : charCmp a b = .lt ↔ a < b := by
  unfold charCmp; split_ifs with h1 h2 <;> simp [h1]

theorem charCmp_eq_iff (a b : Char) : charCmp a b = .eq ↔ a = b := by
  unfold charCmp
  split_ifs with h1 h2
  · simp [ne_of_lt h1]
  · simp [(ne_of_gt h2)]
  · simp [le_antisymm (not_lt.mp h2) (not_lt.mp h1)]

theorem charCmp_eq_gt {a b : Char} : charCmp a b = .gt ↔ b < a := by
  unfold charCmp
  split_ifs with h1 h2
  · simp [asymm h1]
  · simp [h2]
  · simp [h2]

theorem natCmp_lawful : LawCmp natCmp :=
  lawCmp_ofLinear natCmp (fun _ _ => natCmp_eq_lt) (fun _ _ => natCmp_eq_eq)
    (fun _ _ => natCmp_eq_gt)

theorem charCmp_lawful : LawCmp charCmp :=
  lawCmp_ofLinear charCmp (fun _ _ => charCmp_eq_lt) (fun _ _ => charCmp_eq_iff _ _)
    (fun _ _ => charCmp_eq_gt)

theorem listCmp_eq_iff (a b : List Char) : listCmp a b = .eq ↔ a = b := by
  induction a generalizing b with
  | nil => cases b <;> simp [listCmp]
  | cons x xs ih =>
      cases b with
      | nil => simp [listCmp]
      | cons y ys =>
          simp only [listCmp]
          cases hxy : charCmp x y with
          | eq => simp [ih, (charCmp_eq_iff x y).mp hxy]
          | lt =>
              have : x ≠ y := fun h => by
                rw [h, (charCmp_eq_iff y y).mpr rfl] at hxy
                exact absurd hxy (by simp)
              simp [this]
          | gt =>
              have : x ≠ y := fun h => by
                rw [h, (charCmp_eq_iff y y).mpr rfl] at hxy
                exact absurd hxy (by simp)
              simp [this]

theorem listCmp_lawful : LawCmp listCmp := by
  refine lawCmp_of_eq_iff ?_ ?_ listCmp_eq_iff
  · intro a
    induction a with
    | nil => intro b; cases b <;> simp [listCmp, Ordering.swap]
    | cons x xs ih =>
        intro b
        cases b with
        | nil => simp [listCmp, Ordering.swap]
        | cons y ys =>
            simp only [listCmp]
            rw [charCmp_lawful.symm x y]
            cases h : charCmp y x <;> simp [Ordering.swap, ih ys]
  · intro a b c h1 h2
    induction a generalizing b c with
    | nil =>
        cases b with
        | nil => exact h2
        | cons y ys => cases c <;> simp [listCmp] at h2 ⊢
    | cons x xs ih =>
        cases b with
        | nil => simp [listCmp] at h1
        | cons y ys =>
            cases c with
            | nil => simp [listCmp] at h2
            | cons z zs =>
                simp only [listCmp] at h1 h2 ⊢
                cases hxy : charCmp x y <;> rw [hxy] at h1
                · cases hyz : charCmp y z <;> rw [hyz] at h2
                  · rw [charCmp_lawful.lt_trans hxy hyz]
                  · rw [charCmp_lawful.lt_of_lt_of_eq hxy hyz]
                  · exact absurd h2 (by simp)
                · cases hyz : charCmp y z <;> rw [hyz] at h2
                  · rw [charCmp_lawful.lt_of_eq_of_lt hxy hyz]
                  · rw [charCmp_lawful.eq_trans hxy hyz]
                    exact ih h1 h2
                  · exact absurd h2 (by simp)
                · exact absurd h1 (by simp)

theorem strCmp_lawful : LawCmp strCmp := by
  have h := listCmp_lawful
  exact ⟨fun a b => h.symm a.data b.data,
    fun h1 h2 => h.lt_trans h1 h2,
    fun h1 h2 => h.lt_of_lt_of_eq h1 h2,
    fun h1 h2 => h.lt_of_eq_of_lt h1 h2,
    fun h1 h2 => h.eq_trans h1 h2⟩

/-- Lawfulness transfers along a key projection. -/
theorem lawCmp_proj {cmp : β → β → Ordering} (h : LawCmp cmp) (f : α → β) :
    LawCmp (fun a b => cmp (f a) (f b)) :=
  ⟨fun a b => h.symm (f a) (f b),
    fun h1 h2 => h.lt_trans h1 h2,
    fun h1 h2 => h.lt_of_lt_of_eq h1 h2,
    fun h1 h2 => h.lt_of_eq_of_lt h1 h2,
    fun h1 h2 => h.eq_trans h1 h2⟩

/-- Lawfulness of the swapped-argument (descending) comparator. -/
theorem lawCmp_flip {cmp : β → β → Ordering} (h : LawCmp cmp) (f : α → β) :
    LawCmp (fun a b => cmp (f b) (f a)) := by
  refine ⟨fun a b => h.symm (f b) (f a), ?_, ?_, ?_, ?_⟩
  · intro a b c h1 h2
    exact h.lt_trans h2 h1
  · intro a b c h1 h2
    exact h.lt_of_eq_of_lt h2 h1
  · intro a b c h1 h2
    exact h.lt_of_lt_of_eq h2 h1
  · intro a b c h1 h2
    exact h.eq_trans h2 h1

theorem then_eq_lt (x y : Ordering) :
    x.then y = .lt ↔ x = .lt ∨ (x = .eq ∧ y = .lt) := by
  cases x <;> cases y <;> simp [Ordering.then]

theorem then_eq_eq (x y : Ordering) :
    x.then y = .eq ↔ x = .eq ∧ y = .eq := by
  cases x <;> cases y <;> simp [Ordering.then]

/-- Lawfulness of the `Ordering::then` lexicographic combination. -/
theorem lawCmp_then {c1 c2 : α → α → Ordering} (h1 : LawCmp c1) (h2 : LawCmp c2) :
    LawCmp (fun a b => (c1 a b).then (c2 a b)) := by
  constructor
  · intro a b
    rw [h1.symm a b, h2.symm a b]
    cases c1 b a <;> cases c2 b a <;> rfl
  · intro a b c hab hbc
    rw [then_eq_lt] at hab hbc ⊢
    rcases hab with hab | ⟨hab, hab2⟩
    · rcases hbc with hbc | ⟨hbc, _⟩
      · exact Or.inl (h1.lt_trans hab hbc)
      · exact Or.inl (h1.lt_of_lt_of_eq hab hbc)
    · rcases hbc with hbc | ⟨hbc, hbc2⟩
      · exact Or.inl (h1.lt_of_eq_of_lt hab hbc)
      · exact Or.inr ⟨h1.eq_trans hab hbc, h2.lt_trans hab2 hbc2⟩
  · intro a b c hab hbc
    rw [then_eq_lt] at hab ⊢
    rw [then_eq_eq] at hbc
    rcases hab with hab | ⟨hab, hab2⟩
    · exact Or.inl (h1.lt_of_lt_of_eq hab hbc.1)
    · exact Or.inr ⟨h1.eq_trans hab hbc.1, h2.lt_of_lt_of_eq hab2 hbc.2⟩
  · intro a b c hab hbc
    rw [then_eq_lt] at hbc ⊢
    rw [then_eq_eq] at hab
    rcases hbc with hbc | ⟨hbc, hbc2⟩
    · exact Or.inl (h1.lt_of_eq_of_lt hab.1 hbc)
    · exact Or.inr ⟨h1.eq_trans hab.1 hbc, h2.lt_of_eq_of_lt hab.2 hbc2⟩
  · intro a b c hab hbc
    rw [then_eq_eq] at hab hbc ⊢
    exact ⟨h1.eq_trans hab.1 hbc.1, h2.eq_trans hab.2 hbc.2⟩

theorem lawCmp_congr {cmp cmp' : α → α → Ordering}
    (he : ∀ a b, cmp a b = cmp' a b) (h : LawCmp cmp) : LawCmp cmp' := by
  have : cmp' = cmp := funext fun a => funext fun b => (he a b).symm
  rw [this]
  exact h

/-- The directories-first wrapper is the lexicographic combination with the
rank `0` for directories and `1` otherwise. -/
theorem dirFirstCmp_eq_rank (isDir : α → Bool) (key : α → α → Ordering) (a b : α) :
    dirFirstCmp isDir key a b =
      (natCmp (if isDir a then 0 else 1) (if isDir b then 0 else 1)).then (key a b) := by
  by_cases da : isDir a = true <;> by_cases db : isDir b = true <;>
    simp [dirFirstCmp, natCmp, Ordering.then, da, db]

theorem lawCmp_dirFirst {key : α → α → Ordering} (isDir : α → Bool)
    (h : LawCmp key) : LawCmp (dirFirstCmp isDir key) :=
  lawCmp_congr (fun a b => (dirFirstCmp_eq_rank isDir key a b).symm)
    (lawCmp_then (lawCmp_proj natCmp_lawful (fun x => if isDir x then 0 else 1)) h)

theorem cmpName_lawful : LawCmp cmpName :=
  lawCmp_congr (fun _ _ => rfl)
    (lawCmp_dirFirst FsNode.isDirectory (lawCmp_proj strCmp_lawful FsNode.name))

theorem cmpSize_lawful : LawCmp cmpSize :=
  lawCmp_congr (fun _ _ => rfl)
    (lawCmp_dirFirst FsNode.isDirectory (lawCmp_flip natCmp_lawful FsNode.size))

theorem cmpType_lawful : LawCmp cmpType :=
  lawCmp_congr (fun _ _ => rfl)
    (lawCmp_dirFirst FsNode.isDirectory
      (lawCmp_then (lawCmp_proj strCmp_lawful (fun n => n.extension.getD ""))
        (lawCmp_proj strCmp_lawful FsNode.name)))

theorem scmpName_lawful : LawCmp scmpName :=
  lawCmp_congr (fun _ _ => rfl)
    (lawCmp_dirFirst Entry.pathIsDir (lawCmp_proj strCmp_lawful Entry.nameD))

theorem scmpSize_lawful (follow : Bool) : LawCmp (scmpSize follow) :=
  lawCmp_congr (fun _ _ => rfl)
    (lawCmp_dirFirst Entry.pathIsDir (lawCmp_flip natCmp_lawful (dirEntryLen follow)))

theorem scmpType_lawful : LawCmp scmpType :=
  lawCmp_congr (fun _ _ => rfl)
    (lawCmp_dirFirst Entry.pathIsDir
      (lawCmp_then (lawCmp_proj strCmp_lawful (fun e => (pathExtension e.nameD).getD ""))
        (lawCmp_proj strCmp_lawful Entry.nameD)))

theorem sizeDescCmp_lawful : LawCmp (fun a b : FileEntry => natCmp b.size a.size) :=
  lawCmp_flip natCmp_lawful FileEntry.size

/-! ## Directories-first ordering -/

/-- `le` under a directories-first comparator never lets a non-directory
strictly precede a directory (the comparison is `Greater` there). -/
theorem dirFirst_le_imp (isDir : α → Bool) (key : α → α → Ordering) (a b : α)
    (h : leOfCmp (dirFirstCmp isDir key) a b = true)
    (hb : isDir b = true) : isDir a = true := by
  by_contra ha
  have ha' : isDir a = false := by
    cases hx : isDir a
    · rfl
    · exact absurd hx ha
  have hgt : dirFirstCmp isDir key a b = .gt := by
    unfold dirFirstCmp
    rw [ha', hb]
    simp
  unfold leOfCmp at h
  rw [hgt] at h
  exact absurd h (by decide)

theorem dirsBeforeFiles_of_pairwise (isDir : α → Bool) (le : α → α → Bool)
    (l : List α) (hp : l.Pairwise (fun a b => le a b = true))
    (himp : ∀ a b, le a b = true → isDir b = true → isDir a = true) :
    dirsBeforeFiles isDir l = true := by
  induction l with
  | nil => rfl
  | cons x xs ih =>
      rw [List.pairwise_cons] at hp
      obtain ⟨hx, hxs⟩ := hp
      unfold dirsBeforeFiles
      rw [Bool.and_eq_true]
      refine ⟨?_, ih hxs⟩
      cases hdx : isDir x
      · rw [Bool.false_or, List.all_eq_true]
        intro y hy
        cases hdy : isDir y
        · rfl
        · have := himp x y (hx y hy) hdy
          rw [this] at hdx
          exact absurd hdx (by simp)
      · rfl

/-- `dirsBeforeFiles` as a pairwise property. -/
theorem dirsBeforeFiles_iff_pairwise (isDir : α → Bool) (l : List α) :
    dirsBeforeFiles isDir l = true ↔
      l.Pairwise (fun a b => isDir b = true → isDir a = true) := by
  induction l with
  | nil => simp [dirsBeforeFiles]
  | cons x xs ih =>
      unfold dirsBeforeFiles
      rw [Bool.and_eq_true, List.pairwise_cons, ih]
      constructor
      · rintro ⟨h1, h2⟩
        refine ⟨?_, h2⟩
        intro y hy hdy
        cases hdx : isDir x
        · rw [hdx, Bool.false_or, List.all_eq_true] at h1
          have := h1 y hy
          rw [hdy] at this
          exact absurd this (by simp)
        · rfl
      · rintro ⟨h1, h2⟩
        refine ⟨?_, h2⟩
        cases hdx : isDir x
        · rw [Bool.false_or, List.all_eq_true]
          intro y hy
          cases hdy : isDir y
          · rfl
          · have := h1 y hy hdy
            rw [this] at hdx
            exact absurd hdx (by simp)
        · rfl

/-- Reversing a directories-first list puts all non-directories first. -/
theorem dirsBeforeFiles_reverse (isDir : α → Bool) (l : List α)
    (h : dirsBeforeFiles isDir l = true) :
    dirsBeforeFiles (fun a => !isDir a) l.reverse = true := by
  rw [dirsBeforeFiles_iff_pairwise] at h ⊢
  rw [List.pairwise_reverse]
  refine h.imp ?_
  intro a b hab ha
  cases hdb : isDir b
  · simp
  · have := hab hdb
    rw [this] at ha
    exact absurd ha (by decide)

theorem dirsBeforeFiles_sorted (isDir : α → Bool) (cmp : α → α → Ordering)
    (h : LawCmp cmp)
    (himp : ∀ a b, leOfCmp cmp a b = true → isDir b = true → isDir a = true)
    (l : List α) :
    dirsBeforeFiles isDir (stableSortBy (leOfCmp cmp) l) = true :=
  dirsBeforeFiles_of_pairwise isDir (leOfCmp cmp) _
    (pairwise_stableSortBy _ h.le_total h.le_trans l) himp

theorem sortEntries_noRev_dirsFirst (cfg : WalkConfig) (l : List FsNode) :
    dirsBeforeFiles FsNode.isDirectory
      (sortEntries l { cfg with reverse := false }) = true := by
  cases h : cfg.sortBy <;> simp only [sortEntries, h, if_false, Bool.false_eq_true]
  · exact dirsBeforeFiles_sorted _ cmpName cmpName_lawful
      (fun a b hab hb =>
        dirFirst_le_imp FsNode.isDirectory (fun a b => strCmp a.name b.name) a b hab hb) l
  · exact dirsBeforeFiles_sorted _ cmpSize cmpSize_lawful
      (fun a b hab hb =>
        dirFirst_le_imp FsNode.isDirectory (fun a b => natCmp b.size a.size) a b hab hb) l
  · exact dirsBeforeFiles_sorted _ cmpType cmpType_lawful
      (fun a b hab hb =>
        dirFirst_le_imp FsNode.isDirectory
          (fun a b => (strCmp (a.extension.getD "") (b.extension.getD "")).then
            (strCmp a.name b.name)) a b hab hb) l

theorem sortEntries_rev_eq_reverse (cfg : WalkConfig) (l : List FsNode) :
    sortEntries l { cfg with reverse := true } =
      (sortEntries l { cfg with reverse := false }).reverse := by
  cases h : cfg.sortBy <;> simp [sortEntries, h]

theorem sortEntriesStream_dirsFirst (cfg : StreamConfig) (l : List Entry) :
    dirsBeforeFiles Entry.pathIsDir (sortEntriesStream l cfg) = true := by
  cases h : cfg.sortBy <;> simp only [sortEntriesStream, h]
  · exact dirsBeforeFiles_sorted _ scmpName scmpName_lawful
      (fun a b hab hb =>
        dirFirst_le_imp Entry.pathIsDir (fun a b => strCmp a.nameD b.nameD) a b hab hb) l
  · exact dirsBeforeFiles_sorted _ (scmpSize cfg.followSymlinks)
      (scmpSize_lawful cfg.followSymlinks)
      (fun a b hab hb =>
        dirFirst_le_imp Entry.pathIsDir
          (fun a b => natCmp (dirEntryLen cfg.followSymlinks b)
            (dirEntryLen cfg.followSymlinks a)) a b hab hb) l
  · exact dirsBeforeFiles_sorted _ scmpType scmpType_lawful
      (fun a b hab hb =>
        dirFirst_le_imp Entry.pathIsDir
          (fun a b => (strCmp ((pathExtension a.nameD).getD "")
            ((pathExtension b.nameD).getD "")).then (strCmp a.nameD b.nameD)) a b hab hb) l

/-- Claim C4 (amended).  For every sibling list and every sort field:
directories sort before files and symlinks in both walkers' `sort_entries`;
in the materialized walker, setting `reverse` reverses the *entire* sorted
sequence, so directories end up after files; the streaming walker's
`sort_entries`, however, ignores `reverse` entirely — its output is
unchanged and directories stay first. -/
theorem C4_sort_grouping_amended (cfg : WalkConfig) (scfg : StreamConfig)
    (l : List FsNode) (sl : List Entry) :
    dirsBeforeFiles FsNode.isDirectory
        (sortEntries l { cfg with reverse := false }) = true ∧
    sortEntries l { cfg with reverse := true } =
        (sortEntries l { cfg with reverse := false }).reverse ∧
    dirsBeforeFiles (fun n => !n.isDirectory)
        (sortEntries l { cfg with reverse := true }) = true ∧
    dirsBeforeFiles Entry.pathIsDir (sortEntriesStream sl scfg) = true ∧
    sortEntriesStream sl scfg = sortEntriesStream sl { scfg with reverse := false } := by
  refine ⟨sortEntries_noRev_dirsFirst cfg l, sortEntries_rev_eq_reverse cfg l, ?_,
    sortEntriesStream_dirsFirst scfg sl, ?_⟩
  · rw [sortEntries_rev_eq_reverse cfg l]
    exact dirsBeforeFiles_reverse _ _ (sortEntries_noRev_dirsFirst cfg l)
  · rfl

/-- Claim C4, counterexample to the claim as stated: with `reverse` set, the
*streaming* walker's `sort_entries` still returns the directory `d` before
the file `f` (the claim demands that `reverse` flip the grouping so
directories come after files; the streaming sort has no reverse step at
all). -/
theorem C4_counterexample :
    (sortEntriesStream [Entry.dir "d" 0 .nil, Entry.file "f" 7]
        cfgNameRev.toStreamConfig).map Entry.nameD = ["d", "f"] ∧
    (sortEntriesStream [Entry.dir "d" 0 .nil, Entry.file "f" 7]
        cfgNameRev.toStreamConfig).map Entry.pathIsDir = [true, false] := by
  decide

/-- Claim C6 (confirmed).  For every `FilterConfig` and candidate path with
a base name, `should_exclude` returns true exactly when (a) `exclude_hidden`
is set and the base name starts with `.`, or (b) some exclude pattern
matches the full path or the base name, or (c) an include pattern is set
and matches neither; the definition checks (a), (b), (c) in that order with
early returns, and is a pure function of the config and the path. -/
theorem C6_should_exclude_spec (cfg : FilterConfig) (full name : String) :
    cfg.shouldExclude ⟨full, some name⟩ = specExcluded cfg full name := by
  show (if cfg.excludeHidden && startsWithChar '.' name then true
    else if cfg.excludePatterns.any
        (fun pat => pat.matchesStr full || pat.matchesStr name) then true
    else
      match cfg.includePattern with
      | some pat => if pat.matchesStr full then false else !pat.matchesStr name
      | none => false) = specExcluded cfg full name
  unfold specExcluded
  cases hh : cfg.excludeHidden && startsWithChar '.' name with
  | true => simp [hh]
  | false =>
      cases hAny : cfg.excludePatterns.any
          (fun pat => pat.matchesStr full || pat.matchesStr name) with
      | true => simp [hh, hAny]
      | false =>
          rcases hInc : cfg.includePattern with _ | pat
          · simp [hh, hAny, hInc]
          · cases hMF : pat.matchesStr full <;> cases hMN : pat.matchesStr name <;>
              simp [hh, hAny, hInc, hMF, hMN]

/-- Claim C2 (code bug).  `walk_recursive` stores `meta.len()` as every
node's `size`, directories included, contradicting the `FsNode.size` field's
own documentation ("Size in bytes (0 for directories)") and the claimed
invariant `size_bytes = 0` for directories: walking a root directory whose
metadata length is 4096 (any directory on ext4) yields a root node with
`size = 4096`, not `0`. -/
theorem C2_directory_size_bug :
    resultRootSize (walkDirectory (some (Entry.dir "r" 4096 EntryList.nil)) "r" cfgName)
      = some 4096 ∧
    resultRootSize (walkDirectory (some (Entry.dir "r" 4096 EntryList.nil)) "r" cfgName)
      ≠ some 0 := by
  decide

/-! ## Extension bucketing (claim C8) -/

theorem extKey_eq_spec (n : FsNode) (h : n.nodeType = FsNodeType.file) :
    extKey n = extKeySpec n.name := by
  have hd : n.isDirectory = false := by
    unfold FsNode.isDirectory
    rw [h]
    rfl
  unfold extKey FsNode.extension extKeySpec
  rw [hd]
  simp only [Bool.false_eq_true, if_false]
  rw [Bool.and_comm]
  cases hc : n.name.data.contains '.' && !(afterLastDot n.name).isEmpty <;> simp [hc]

theorem extCS_bump (m : List (String × Nat × Nat)) (k : String) (sz : Nat) (q : String) :
    extCS (bump m k sz) q =
      if q = k then ((extCS m q).1 + 1, (extCS m q).2 + sz) else extCS m q := by
  induction m with
  | nil =>
      by_cases hq : q = k
      · subst hq
        simp [bump, extCS, lookupExt]
      · have : ¬(k = q) := fun hh => hq hh.symm
        simp [bump, extCS, lookupExt, hq, this]
  | cons hd tl ih =>
      obtain ⟨k0, c0, s0⟩ := hd
      by_cases hk0 : k0 = k
      · subst hk0
        by_cases hq : q = k0
        · subst hq
          simp [bump, extCS, lookupExt]
        · have : ¬(k0 = q) := fun hh => hq hh.symm
          simp [bump, extCS, lookupExt, hq, this]
      · by_cases hq0 : k0 = q
        · subst hq0
          simp [bump, extCS, lookupExt, hk0]
        · simp [bump, extCS, lookupExt, hk0, hq0] at ih ⊢
          rw [ih]

theorem extCS_analyze_aux (files : List FsNode) (q : String) :
    ∀ m, extCS (files.foldl (fun m f => bump m (extKey f) f.size) m) q =
      ((extCS m q).1 + (files.filter (fun f => extKey f == q)).length,
       (extCS m q).2 + ((files.filter (fun f => extKey f == q)).map FsNode.size).sum) := by
  induction files with
  | nil => intro m; simp
  | cons f fs ih =>
      intro m
      rw [List.foldl_cons, ih (bump m (extKey f) f.size)]
      rw [extCS_bump]
      by_cases hq : extKey f = q
      · have hq' : q = extKey f := hq.symm
        have hbeq : (extKey f == q) = true := by simp [hq]
        simp only [List.filter_cons, hbeq, if_pos hq']
        simp [List.length_cons]
        omega
      · have hq' : ¬(q = extKey f) := fun hh => hq hh.symm
        have hbeq : (extKey f == q) = false := by simp [hq]
        simp only [List.filter_cons, hbeq, if_neg hq']
        simp

theorem extCS_analyze (files : List FsNode) (q : String) :
    extCS (analyzeByExtension files) q =
      ((files.filter (fun f => extKey f == q)).length,
       ((files.filter (fun f => extKey f == q)).map FsNode.size).sum) := by
  unfold analyzeByExtension
  rw [extCS_analyze_aux files q []]
  simp [extCS, lookupExt]

/-- Claim C8 (amended).  The bucketing key of `analyze_by_extension` is `.`
followed by the text after the last dot when the file name contains a dot
*and* that text is non-empty, and the sentinel `"(no extension)"` otherwise
— so not only dotless names but also names ending in a dot map to the
sentinel; a file counts toward exactly the bucket of its key, with its size;
`README` maps to the sentinel and `archive.tar.gz` to `.gz`. -/
theorem C8_extension_buckets_amended :
    (∀ n : FsNode, n.nodeType = FsNodeType.file → extKey n = extKeySpec n.name) ∧
    (∀ (files : List FsNode) (q : String),
      extCS (analyzeByExtension files) q =
        ((files.filter (fun f => extKey f == q)).length,
         ((files.filter (fun f => extKey f == q)).map FsNode.size).sum)) ∧
    extKey (FsNode.mk "README" "r/README" .file 1 1 .none) = "(no extension)" ∧
    extKey (FsNode.mk "archive.tar.gz" "r/archive.tar.gz" .file 1 1 .none) = ".gz" := by
  refine ⟨extKey_eq_spec, extCS_analyze, ?_, ?_⟩ <;> decide

/-- Claim C8, counterexample to the claim as stated: a file named `foo.`
contains a dot, so the claim puts it in bucket `"."` (`.` followed by the
empty suffix) and reserves the sentinel for names with no dot at all; the
code's `extension()` filters out the empty suffix and yields the sentinel. -/
theorem C8_counterexample :
    extKey nodeFooDot = "(no extension)" ∧ extKey nodeFooDot ≠ "." := by
  decide

/-! ## Largest files (claim C7) -/

mutual
theorem countNode_files_len : ∀ (n : FsNode) (acc : StatsAcc),
    acc.totalFiles = acc.allFiles.length →
    (countNode n acc).totalFiles = (countNode n acc).allFiles.length
  | .mk n p t s d c, acc => fun h => by
      unfold countNode
      cases t <;> simp only [] <;>
        exact countChildren_files_len c _ (by simp [h])
theorem countChildren_files_len : ∀ (c : FsChildren) (acc : StatsAcc),
    acc.totalFiles = acc.allFiles.length →
    (countChildren c acc).totalFiles = (countChildren c acc).allFiles.length
  | .none, _ => fun h => h
  | .some f, acc => fun h => countForestAcc_files_len f acc h
theorem countForestAcc_files_len : ∀ (f : FsForest) (acc : StatsAcc),
    acc.totalFiles = acc.allFiles.length →
    (countForestAcc f acc).totalFiles = (countForestAcc f acc).allFiles.length
  | .nil, _ => fun h => h
  | .cons nd rest, acc => fun h =>
      countForestAcc_files_len rest _ (countNode_files_len nd acc h)
end

theorem collectStats_totalFiles (t : FsTree) :
    (collectStats t).totalFiles = (allFilesOf t).length := by
  unfold collectStats allFilesOf
  exact countNode_files_len t.root _ rfl

theorem filter_sortedInsert (le : α → α → Bool) (p : α → Bool)
    (hp : ∀ a b, p a = true → p b = true → le a b = true) (x : α) (l : List α) :
    (sortedInsert le x l).filter p = ((x :: l).filter p) := by
  induction l with
  | nil => rfl
  | cons y ys ih =>
      simp only [sortedInsert]
      by_cases hxy : le x y = true
      · rw [if_pos hxy]
      · rw [if_neg hxy]
        cases hpx : p x
        · cases hpy : p y <;> simp_all [List.filter_cons]
        · have hpy : p y = false := by
            cases hyv : p y
            · rfl
            · exact absurd (hp x y hpx hyv) hxy
          simp_all [List.filter_cons]

theorem filter_stableSortBy (le : α → α → Bool) (p : α → Bool)
    (hp : ∀ a b, p a = true → p b = true → le a b = true) (l : List α) :
    (stableSortBy le l).filter p = l.filter p := by
  induction l with
  | nil => rfl
  | cons x xs ih =>
      rw [stableSortBy, filter_sortedInsert le p hp x (stableSortBy le xs)]
      simp [List.filter_cons, ih]

theorem findLargestFiles_eq (files : List FsNode) (lim : Nat) :
    findLargestFiles files lim =
      (stableSortBy (leOfCmp (fun a b : FileEntry => natCmp b.size a.size))
        (files.map toFileEntry)).take lim := by
  unfold findLargestFiles
  by_cases h : files.isEmpty
  · have : files = [] := by
      cases files
      · rfl
      · exact absurd h (by simp)
    subst this
    simp [stableSortBy]
  · rw [if_neg h]
    rfl

theorem bne_gt_iff (x : Ordering) : (x != Ordering.gt) = true ↔ ¬(x = Ordering.gt) := by
  cases x <;> decide

theorem leSizeDesc_iff (a b : FileEntry) :
    leOfCmp (fun a b : FileEntry => natCmp b.size a.size) a b = true ↔ b.size ≤ a.size := by
  unfold leOfCmp
  rw [bne_gt_iff]
  constructor
  · intro h
    by_contra hlt
    exact h (natCmp_eq_gt.mpr (by omega))
  · intro h hgt
    have := natCmp_eq_gt.mp hgt
    omega

/-- Claim C7 (amended).  `collect_stats` builds `largest_files` with the
limit fixed at `DEFAULT_MAX_LARGEST = 10` (the CLI's `--top-files` value and
its enforced minimum of 1 never reach the collector): the list is the
stable size-descending sort of all recorded files truncated to 10, its
length is `min 10 total_files`, it is sorted non-increasing by size, and
the stable sort preserves the discovery order within every size tie. -/
theorem C7_largest_files_amended (t : FsTree) :
    (collectStats t).largestFiles =
      (stableSortBy (leOfCmp (fun a b : FileEntry => natCmp b.size a.size))
        ((allFilesOf t).map toFileEntry)).take DEFAULT_MAX_LARGEST ∧
    (collectStats t).largestFiles.length =
      min DEFAULT_MAX_LARGEST (collectStats t).totalFiles ∧
    (collectStats t).largestFiles.Pairwise (fun a b => b.size ≤ a.size) ∧
    ∀ s : Nat,
      (stableSortBy (leOfCmp (fun a b : FileEntry => natCmp b.size a.size))
          ((allFilesOf t).map toFileEntry)).filter (fun x => x.size == s) =
        ((allFilesOf t).map toFileEntry).filter (fun x => x.size == s) := by
  have hlf : (collectStats t).largestFiles =
      (stableSortBy (leOfCmp (fun a b : FileEntry => natCmp b.size a.size))
        ((allFilesOf t).map toFileEntry)).take DEFAULT_MAX_LARGEST := by
    show findLargestFiles (allFilesOf t) DEFAULT_MAX_LARGEST = _
    exact findLargestFiles_eq _ _
  refine ⟨hlf, ?_, ?_, ?_⟩
  · rw [hlf, List.length_take, length_stableSortBy, List.length_map,
      collectStats_totalFiles]
  · rw [hlf]
    refine List.Pairwise.sublist (List.take_sublist _ _) ?_
    have hp := pairwise_stableSortBy
      (leOfCmp (fun a b : FileEntry => natCmp b.size a.size))
      sizeDescCmp_lawful.le_total sizeDescCmp_lawful.le_trans
      ((allFilesOf t).map toFileEntry)
    exact hp.imp (fun h => (leSizeDesc_iff _ _).mp h)
  · intro s
    refine filter_stableSortBy _ _ ?_ _
    intro a b ha hb
    rw [leSizeDesc_iff]
    have ha' : a.size = s := by simpa using ha
    have hb' : b.size = s := by simpa using hb
    omega

/-- Claim C7, counterexample to the claim as stated: the limit is not
caller-specified — with the CLI value `top_files = 2` (so
`top_files_count() = 2`) and a tree of 3 files, `collect_stats` still
returns 3 largest files, not `min 2 3 = 2`. -/
theorem C7_counterexample :
    (walkDirectory (some fixThree) "r" cfgName).toOption.map
        (fun t => (collectStats t).largestFiles.length) = some 3 ∧
    topFilesCount 2 = 2 ∧
    ¬((3 : Nat) = min (topFilesCount 2) 3) := by
  decide

/-! ## Symlinks are leaves (claim C3) -/

theorem all_of_perm (p : α → Bool) {l l' : List α} (h : l.Perm l') :
    l.all p = l'.all p := by
  apply Bool.eq_iff_iff.mpr
  simp only [List.all_eq_true]
  constructor <;> intro hh x hx
  · exact hh x (h.mem_iff.mpr hx)
  · exact hh x (h.mem_iff.mp hx)

theorem sortEntries_perm (l : List FsNode) (cfg : WalkConfig) :
    (sortEntries l cfg).Perm l := by
  unfold sortEntries
  cases cfg.sortBy <;> cases cfg.reverse <;> simp only [if_true, if_false] <;>
    first
    | exact (List.reverse_perm _).trans (stableSortBy_perm _ _)
    | exact stableSortBy_perm _ _

theorem sortEntriesStream_perm (l : List Entry) (cfg : StreamConfig) :
    (sortEntriesStream l cfg).Perm l := by
  unfold sortEntriesStream
  cases cfg.sortBy <;> exact stableSortBy_perm _ _

theorem symlinkLeafForest_ofList (l : List FsNode) :
    symlinkLeafForest (FsForest.ofList l) = l.all symlinkLeafB := by
  induction l with
  | nil => rfl
  | cons n rest ih => simp [FsForest.ofList, symlinkLeafForest, ih]

theorem symlinkLeafChildren_ofList (l : List FsNode) :
    symlinkLeafChildren (childrenOfList l) = l.all symlinkLeafB := by
  unfold childrenOfList
  cases l with
  | nil => rfl
  | cons n rest =>
      simp [symlinkLeafChildren, symlinkLeafForest_ofList]

mutual
theorem walkNode_symlinkLeaf : ∀ (e : Entry) (path : String) (depth : Nat)
    (cfg : WalkConfig), (walkNode e path depth cfg).all symlinkLeafB = true
  | .file _ _, _, _, _ => by
      simp [walkNode, symlinkLeafB, symlinkLeafChildren]
  | .dir _ _ es, path, depth, cfg => by
      simp only [walkNode, Option.all_some, symlinkLeafB]
      rw [Bool.and_eq_true]
      refine ⟨rfl, ?_⟩
      by_cases hlim : (decide (cfg.maxDepth > 0) && decide (depth ≥ cfg.maxDepth)) = true
      · rw [if_pos hlim]; rfl
      · rw [if_neg hlim, symlinkLeafChildren_ofList,
          all_of_perm symlinkLeafB (sortEntries_perm _ cfg)]
        exact walkForest_symlinkLeaf es path (depth + 1) cfg
  | .symlink _ _ .none, _, _, _ => by
      simp [walkNode, symlinkLeafB, symlinkLeafChildren]
  | .symlink _ _ (.tfile _), _, _, _ => by
      simp [walkNode, symlinkLeafB, symlinkLeafChildren]
  | .symlink _ _ (.tdir _ es), path, depth, cfg => by
      simp only [walkNode, Option.all_some, symlinkLeafB]
      rw [Bool.and_eq_true]
      refine ⟨rfl, ?_⟩
      by_cases hlim : (decide (cfg.maxDepth > 0) && decide (depth ≥ cfg.maxDepth)) = true
      · rw [if_pos hlim]; rfl
      · rw [if_neg hlim, symlinkLeafChildren_ofList,
          all_of_perm symlinkLeafB (sortEntries_perm _ cfg)]
        exact walkForest_symlinkLeaf es path (depth + 1) cfg
  | .ioErr, _, _, _ => by rfl
  | .statErr _, _, _, _ => by rfl
theorem walkForest_symlinkLeaf : ∀ (es : EntryList) (path : String) (depth : Nat)
    (cfg : WalkConfig), (walkForest es path depth cfg).all symlinkLeafB = true
  | .nil, _, _, _ => by rfl
  | .cons c rest, parent, depth, cfg => by
      simp only [walkForest, List.all_append]
      rw [Bool.and_eq_true]
      refine ⟨?_, walkForest_symlinkLeaf rest parent depth cfg⟩
      by_cases h1 : (c.isIoErr || (cfg.followSymlinks && c.isBrokenSymlink)) = true
      · rw [if_pos h1]; rfl
      · rw [if_neg h1]
        by_cases h2 : cfg.filter.shouldExclude
            ⟨parent ++ "/" ++ c.nameD, some c.nameD⟩ = true
        · rw [if_pos h2]; rfl
        · rw [if_neg h2]
          have hw := walkNode_symlinkLeaf c (parent ++ "/" ++ c.nameD) depth cfg
          cases hwn : walkNode c (parent ++ "/" ++ c.nameD) depth cfg with
          | none => rfl
          | some nd =>
              rw [hwn] at hw
              simpa using hw
end

theorem emitLoop_symlinkNoChildren (recurse : Entry → String → List StreamNode)
    (path : String) (depth : Nat) (cfg : StreamConfig) (l : List Entry)
    (hrec : ∀ c cp, ((recurse c cp).all
      (fun s => !(s.nodeType == FsNodeType.symlink) || !s.hasChildren)) = true) :
    (emitLoop recurse path depth cfg l).all
      (fun s => !(s.nodeType == FsNodeType.symlink) || !s.hasChildren) = true := by
  induction l with
  | nil => rfl
  | cons c rest ih =>
      simp only [emitLoop, List.all_append]
      rw [Bool.and_eq_true]
      refine ⟨?_, ih⟩
      cases hm : statMeta c with
      | none => rfl
      | some m =>
          by_cases hd : (nodeTypeOf m == FsNodeType.directory) = true
          · simp only [hd, if_true, List.all_cons]
            rw [Bool.and_eq_true]
            refine ⟨?_, hrec c _⟩
            have : nodeTypeOf m = FsNodeType.directory := by
              simpa using hd
            simp [this]
          · simp only [hd, if_false]
            simp

theorem streamChildren_symlinkNoChildren (fuel : Nat) :
    ∀ (e : Entry) (path : String) (depth : Nat) (cfg : StreamConfig),
    (streamChildren fuel e path depth cfg).all
      (fun s => !(s.nodeType == FsNodeType.symlink) || !s.hasChildren) = true := by
  induction fuel with
  | zero => intro e path depth cfg; rfl
  | succ f ih =>
      intro e path depth cfg
      unfold streamChildren
      by_cases hg : (decide (cfg.maxDepth > 0) && decide (depth > cfg.maxDepth)) = true
      · rw [if_pos hg]; rfl
      · rw [if_neg hg]
        exact emitLoop_symlinkNoChildren _ _ _ _ _ (fun c cp => ih c cp (depth + 1) cfg)

theorem filter_and_comm (p q : α → Bool) (l : List α) :
    l.filter (fun a => p a && q a) = (l.filter p).filter q := by
  induction l with
  | nil => rfl
  | cons x xs ih =>
      rw [List.filter_cons, List.filter_cons]
      cases hp : p x with
      | false =>
          simp only [Bool.false_and, Bool.false_eq_true, if_false]
          exact ih
      | true =>
          simp only [Bool.true_and, if_true]
          rw [List.filter_cons]
          cases hq : q x with
          | false =>
              simp only [Bool.false_eq_true, if_false]
              exact ih
          | true =>
              simp only [if_true]
              exact congrArg (List.cons x) ih

theorem filter_congr_mem {p q : α → Bool} : ∀ (l : List α),
    (∀ a ∈ l, p a = q a) → l.filter p = l.filter q
  | [], _ => rfl
  | x :: xs, h => by
      rw [List.filter_cons, List.filter_cons,
        filter_congr_mem xs (fun a ha => h a (by simp [ha])), h x (by simp)]

theorem filter_broken_comm (l : List Entry) :
    l.filter (fun c => !c.isIoErr && !(true && c.isBrokenSymlink)) =
      (l.filter (fun c => !c.isIoErr && !(false && c.isBrokenSymlink))).filter
        (fun c => !c.isBrokenSymlink) := by
  rw [filter_congr_mem l (fun c _ =>
    show (!c.isIoErr && !(true && c.isBrokenSymlink))
        = ((!c.isIoErr && !(false && c.isBrokenSymlink)) && !c.isBrokenSymlink) from by
      cases c.isIoErr <;> cases c.isBrokenSymlink <;> rfl)]
  exact filter_and_comm _ _ _

/-- Claim C3 (amended).  The leaf part of the claim holds: in every tree
`walk_directory` returns, a node classified `Symlink` has `children = none`
(only broken symlinks are so classified), and every `Symlink`-classified
`StreamNode` carries `has_children = false` and is not recursed into.  The
claim's final clause is false, however: `follow_symlinks` does *not*
control whether enumeration descends through a symlinked directory.  Each
level's `WalkDir` is rooted at the entry's own path, and `walkdir` always
follows a root symlink (`follow_root_links` defaults to `true`), so a
symlink to a directory is walked exactly like the directory itself under
both flag values (third and fourth conjuncts); in the enumeration the flag
only drops broken symlinks (they become `Err` items when following, fifth
conjunct). -/
theorem C3_symlink_leaves_amended :
    (∀ (root : Option Entry) (p : String) (cfg : WalkConfig),
      resultSymlinkLeaf (walkDirectory root p cfg) = true) ∧
    (∀ (fuel : Nat) (e : Entry) (sp : String) (d : Nat) (scfg : StreamConfig),
      (streamChildren fuel e sp d scfg).all
        (fun s => !(s.nodeType == FsNodeType.symlink) || !s.hasChildren) = true) ∧
    (∀ (n : String) (ls ds : Nat) (es : EntryList) (p : String) (d : Nat)
      (cfg : WalkConfig),
      walkNode (Entry.symlink n ls (TargetOpt.tdir ds es)) p d cfg =
        walkNode (Entry.dir n ds es) p d cfg) ∧
    (∀ (n : String) (ls ds : Nat) (es : EntryList) (follow : Bool),
      enumEntries (Entry.symlink n ls (TargetOpt.tdir ds es)) follow =
        enumEntries (Entry.dir n ds es) follow) ∧
    (∀ (e : Entry), enumEntries e true =
      (enumEntries e false).filter (fun c => !c.isBrokenSymlink)) := by
  refine ⟨?_, fun fuel => streamChildren_symlinkNoChildren fuel,
    fun n ls ds es p d cfg => rfl, fun n ls ds es follow => rfl, ?_⟩
  · intro root p cfg
    unfold resultSymlinkLeaf walkDirectory
    cases root with
    | none => rfl
    | some e0 =>
        cases hm : followedMeta e0 with
        | none => simp [hm]
        | some m =>
            cases hmd : m.isDir with
            | false => simp [hm, hmd]
            | true =>
                have hw := walkNode_symlinkLeaf e0 p 0 cfg
                cases hwn : walkNode e0 p 0 cfg with
                | none => simp [hm, hmd, hwn]
                | some rootNode =>
                    rw [hwn] at hw
                    simp only [Option.all] at hw
                    simp [hm, hmd, hwn, hw]
  · intro e
    unfold enumEntries
    exact filter_broken_comm _

/-- Claim C3, counterexample to the claim as stated: with
`follow_symlinks = false` both walkers still descend through a symlink to a
directory — the file inside the symlinked directory appears in the tree at
depth 2 under the (directory-classified) symlink and is emitted by the
stream, and the walk equals the `follow_symlinks = true` walk — refuting
the clause that the flag controls symlinked-directory descent. -/
theorem C3_counterexample :
    resultSeq (walkDirectory (some fixSymDir) "r" cfgName) =
      some [("r", 0, true), ("s", 1, true), ("a", 2, true)] ∧
    resultSeq (walkDirectory (some fixSymDir) "r" cfgNameFollow) =
      resultSeq (walkDirectory (some fixSymDir) "r" cfgName) ∧
    resultStreamTuples (walkStreaming 9 (some fixSymDir) "r" cfgName.toStreamConfig) =
      some [("s", 0, true), ("a", 1, true)] := by
  refine ⟨?_, ?_, ?_⟩ <;> decide

/-! ## Root validation and per-entry error swallowing (claim C9) -/

theorem walkNode_isSome (e : Entry) (p : String) (d : Nat) (cfg : WalkConfig)
    (m : Metadata) (hm : followedMeta e = some m) :
    (walkNode e p d cfg).isSome = true := by
  cases e with
  | file _ _ => rfl
  | dir _ _ _ => rfl
  | symlink _ _ t => cases t <;> rfl
  | ioErr => exact absurd hm (by simp [followedMeta])
  | statErr _ => exact absurd hm (by simp [followedMeta])

/-- Claim C9 (confirmed).  Both walkers return `PathNotFound` when the root
does not exist (also when its metadata cannot be resolved, e.g. a broken
symlink root, since `Path::exists` follows links) and `NotADirectory` when
it resolves to a non-directory; once the root validates they always return
`Ok` — per-entry failures never escape — and a child entry whose
enumeration (`Err(_)` item) or metadata fetch fails is simply omitted from
the collected children. -/
theorem C9_root_validation_and_skips :
    (∀ (p : String) (cfg : WalkConfig),
      walkDirectory none p cfg = .error (.pathNotFound p)) ∧
    (∀ (fuel : Nat) (p : String) (scfg : StreamConfig),
      walkStreaming fuel none p scfg = .error (.pathNotFound p)) ∧
    (∀ (e : Entry) (p : String) (cfg : WalkConfig), followedMeta e = none →
      walkDirectory (some e) p cfg = .error (.pathNotFound p)) ∧
    (∀ (fuel : Nat) (e : Entry) (p : String) (scfg : StreamConfig),
      followedMeta e = none →
      walkStreaming fuel (some e) p scfg = .error (.pathNotFound p)) ∧
    (∀ (e : Entry) (p : String) (cfg : WalkConfig) (m : Metadata),
      followedMeta e = some m → m.isDir = false →
      walkDirectory (some e) p cfg = .error (.notADirectory p)) ∧
    (∀ (fuel : Nat) (e : Entry) (p : String) (scfg : StreamConfig) (m : Metadata),
      followedMeta e = some m → m.isDir = false →
      walkStreaming fuel (some e) p scfg = .error (.notADirectory p)) ∧
    (∀ (e : Entry) (p : String) (cfg : WalkConfig) (m : Metadata),
      followedMeta e = some m → m.isDir = true →
      resultIsOk (walkDirectory (some e) p cfg) = true) ∧
    (∀ (fuel : Nat) (e : Entry) (p : String) (scfg : StreamConfig) (m : Metadata),
      followedMeta e = some m → m.isDir = true →
      streamIsOk (walkStreaming fuel (some e) p scfg) = true) ∧
    (∀ (rest : EntryList) (p : String) (d : Nat) (cfg : WalkConfig),
      walkForest (.cons .ioErr rest) p d cfg = walkForest rest p d cfg) ∧
    (∀ (s : String) (rest : EntryList) (p : String) (d : Nat) (cfg : WalkConfig),
      walkForest (.cons (.statErr s) rest) p d cfg = walkForest rest p d cfg) := by
  refine ⟨fun p cfg => rfl, fun fuel p scfg => rfl, ?_, ?_, ?_, ?_, ?_, ?_, ?_, ?_⟩
  · intro e p cfg hm
    unfold walkDirectory
    simp [hm]
  · intro fuel e p scfg hm
    unfold walkStreaming
    simp [hm]
  · intro e p cfg m hm hd
    unfold walkDirectory
    simp [hm, hd]
  · intro fuel e p scfg m hm hd
    unfold walkStreaming
    simp [hm, hd]
  · intro e p cfg m hm hd
    unfold resultIsOk walkDirectory
    have hs := walkNode_isSome e p 0 cfg m hm
    cases hwn : walkNode e p 0 cfg with
    | none => rw [hwn] at hs; exact absurd hs (by simp)
    | some nd => simp [hm, hd, hwn]
  · intro fuel e p scfg m hm hd
    unfold streamIsOk walkStreaming
    simp [hm, hd]
  · intro rest p d cfg
    conv_lhs => rw [walkForest]
    simp [Entry.isIoErr]
  · intro s rest p d cfg
    conv_lhs => rw [walkForest]
    by_cases hx : cfg.filter.shouldExclude ⟨p ++ "/" ++ (Entry.statErr s).nameD,
        some (Entry.statErr s).nameD⟩ = true
    · simp [Entry.isIoErr, Entry.isBrokenSymlink, hx]
    · simp [Entry.isIoErr, Entry.isBrokenSymlink, hx, walkNode]

/-- Witness for C9 at concrete inputs: a broken-symlink root gives
`PathNotFound`, a file root gives `NotADirectory`, a directory root
containing only failing entries still walks `Ok`. -/
theorem C9_witness :
    walkDirectory (some (Entry.symlink "s" 3 .none)) "s" cfgName
        = .error (.pathNotFound "s") ∧
    walkDirectory (some (Entry.file "f" 3)) "f" cfgName
        = .error (.notADirectory "f") ∧
    resultIsOk (walkDirectory
        (some (Entry.dir "r" 0 (.cons .ioErr (.cons (.statErr "z") .nil)))) "r" cfgName)
      = true := by
  refine ⟨?_, ?_, ?_⟩
  · exact C9_root_validation_and_skips.2.2.1 (Entry.symlink "s" 3 .none) "s" cfgName rfl
  · exact C9_root_validation_and_skips.2.2.2.2.1 (Entry.file "f" 3) "f" cfgName
      ⟨false, false, 3⟩ rfl rfl
  · exact C9_root_validation_and_skips.2.2.2.2.2.2.1
      (Entry.dir "r" 0 (.cons .ioErr (.cons (.statErr "z") .nil))) "r" cfgName
      ⟨false, true, 0⟩ rfl rfl

/-! ## Streaming depth and root omission (claim C10) -/

theorem emitLoop_mem_path (recurse : Entry → String → List StreamNode)
    (path : String) (depth : Nat) (cfg : StreamConfig) (l : List Entry)
    (hrec : ∀ c cp s, s ∈ recurse c cp → cp.length < s.path.length) :
    ∀ s ∈ emitLoop recurse path depth cfg l, path.length < s.path.length := by
  induction l with
  | nil => intro s hs; exact absurd hs (by simp [emitLoop])
  | cons c rest ih =>
      intro s hs
      rw [emitLoop, List.mem_append] at hs
      rcases hs with hs | hs
      · have hlen : path.length < (path ++ "/" ++ c.nameD).length := by
          rw [String.length_append, String.length_append]
          have : ("/" : String).length = 1 := rfl
          omega
        cases hm : statMeta c with
        | none => simp only [hm] at hs; exact absurd hs (by simp)
        | some m =>
            simp only [hm] at hs
            by_cases hd : (nodeTypeOf m == FsNodeType.directory) = true
            · rw [if_pos hd] at hs
              rcases List.mem_cons.mp hs with rfl | hs
              · exact hlen
              · exact lt_trans hlen (hrec c _ s hs)
            · rw [if_neg hd] at hs
              rcases List.mem_cons.mp hs with rfl | hs
              · exact hlen
              · exact absurd hs (by simp)
      · exact ih s hs

theorem streamChildren_mem_path (fuel : Nat) :
    ∀ (e : Entry) (path : String) (d : Nat) (cfg : StreamConfig) (s : StreamNode),
      s ∈ streamChildren fuel e path d cfg → path.length < s.path.length := by
  induction fuel with
  | zero => intro e path d cfg s hs; exact absurd hs (by simp [streamChildren])
  | succ f ih =>
      intro e path d cfg s hs
      rw [streamChildren] at hs
      by_cases hg : (decide (cfg.maxDepth > 0) && decide (d > cfg.maxDepth)) = true
      · rw [if_pos hg] at hs; exact absurd hs (by simp)
      · rw [if_neg hg] at hs
        exact emitLoop_mem_path _ _ _ _ _ (fun c cp s' hs' => ih c cp (d + 1) cfg s' hs')
          s hs

theorem emitLoop_mem_depth (recurse : Entry → String → List StreamNode)
    (path : String) (depth : Nat) (cfg : StreamConfig) (l : List Entry)
    (hrec : ∀ c cp s, s ∈ recurse c cp → depth < s.depth) :
    ∀ s ∈ emitLoop recurse path depth cfg l, depth ≤ s.depth := by
  induction l with
  | nil => intro s hs; exact absurd hs (by simp [emitLoop])
  | cons c rest ih =>
      intro s hs
      rw [emitLoop, List.mem_append] at hs
      rcases hs with hs | hs
      · cases hm : statMeta c with
        | none => simp only [hm] at hs; exact absurd hs (by simp)
        | some m =>
            simp only [hm] at hs
            by_cases hd : (nodeTypeOf m == FsNodeType.directory) = true
            · rw [if_pos hd] at hs
              rcases List.mem_cons.mp hs with rfl | hs
              · exact le_refl _
              · exact le_of_lt (hrec c _ s hs)
            · rw [if_neg hd] at hs
              rcases List.mem_cons.mp hs with rfl | hs
              · exact le_refl _
              · exact absurd hs (by simp)
      · exact ih s hs

theorem streamChildren_mem_depth (fuel : Nat) :
    ∀ (e : Entry) (path : String) (d : Nat) (cfg : StreamConfig) (s : StreamNode),
      s ∈ streamChildren fuel e path d cfg → d ≤ s.depth := by
  induction fuel with
  | zero => intro e path d cfg s hs; exact absurd hs (by simp [streamChildren])
  | succ f ih =>
      intro e path d cfg s hs
      rw [streamChildren] at hs
      by_cases hg : (decide (cfg.maxDepth > 0) && decide (d > cfg.maxDepth)) = true
      · rw [if_pos hg] at hs; exact absurd hs (by simp)
      · rw [if_neg hg] at hs
        refine emitLoop_mem_depth _ _ _ _ _ ?_ s hs
        intro c cp s' hs'
        exact lt_of_lt_of_le (Nat.lt_succ_self d) (ih c cp (d + 1) cfg s' hs')

theorem emitLoop_filter_depth (recurse : Entry → String → List StreamNode)
    (path : String) (d : Nat) (cfg : StreamConfig) (l : List Entry)
    (hrec : ∀ c cp s, s ∈ recurse c cp → d < s.depth) :
    (emitLoop recurse path d cfg l).filter (fun s => s.depth == d) =
      emitLoop (fun _ _ => []) path d cfg l := by
  induction l with
  | nil => rfl
  | cons c rest ih =>
      rw [emitLoop, List.filter_append, ih]
      conv_rhs => rw [emitLoop]
      congr 1
      cases hm : statMeta c with
      | none => simp [hm]
      | some m =>
          simp only [hm]
          by_cases hd : (nodeTypeOf m == FsNodeType.directory) = true
          · rw [if_pos hd, if_pos hd, List.filter_cons]
            simp only [beq_self_eq_true, if_true]
            have : (recurse c (path ++ "/" ++ c.nameD)).filter
                (fun s => s.depth == d) = [] := by
              rw [List.filter_eq_nil_iff]
              intro s hs
              have := hrec c _ s hs
              simp only [beq_iff_eq]
              omega
            rw [this]
          · rw [if_neg hd, if_neg hd, List.filter_cons]
            simp

theorem streamChildren_filter_level (fuel : Nat) (e : Entry) (path : String)
    (d : Nat) (cfg : StreamConfig) :
    (streamChildren (fuel + 1) e path d cfg).filter (fun s => s.depth == d) =
      if (decide (cfg.maxDepth > 0) && decide (d > cfg.maxDepth)) = true then []
      else streamLevel e path d cfg := by
  rw [streamChildren]
  by_cases hg : (decide (cfg.maxDepth > 0) && decide (d > cfg.maxDepth)) = true
  · rw [if_pos hg, if_pos hg]; rfl
  · rw [if_neg hg, if_neg hg]
    exact emitLoop_filter_depth _ _ _ _ _
      (fun c cp s hs =>
        lt_of_lt_of_le (Nat.lt_succ_self d) (streamChildren_mem_depth fuel c cp (d + 1) cfg s hs))

/-- Claim C10 (confirmed).  The streaming walker never emits the root node:
every emitted node's path strictly extends the root path (so in particular
it never equals it).  Every node emitted by a recursion level at depth `d`
carries `depth ≥ d`, and the depth-0 records of a walk started at the root
are exactly the one-level emissions for the root's immediate surviving
children, in order — the root's children are emitted with `depth = 0`. -/
theorem C10_streaming_root_depth :
    (∀ (fuel : Nat) (e : Entry) (path : String) (d : Nat) (cfg : StreamConfig)
      (s : StreamNode), s ∈ streamChildren fuel e path d cfg →
        path.length < s.path.length) ∧
    (∀ (fuel : Nat) (e : Entry) (path : String) (d : Nat) (cfg : StreamConfig)
      (s : StreamNode), s ∈ streamChildren fuel e path d cfg → d ≤ s.depth) ∧
    (∀ (fuel : Nat) (e : Entry) (path : String) (cfg : StreamConfig),
      (streamChildren (fuel + 1) e path 0 cfg).filter (fun s => s.depth == 0) =
        streamLevel e path 0 cfg) := by
  refine ⟨fun fuel => streamChildren_mem_path fuel,
    fun fuel => streamChildren_mem_depth fuel, ?_⟩
  intro fuel e path cfg
  rw [streamChildren_filter_level fuel e path 0 cfg]
  simp

/-! ## Walker/streaming correspondence: shared bridge lemmas -/

/-- The per-entry skip logic of `collect_children` as filters plus
`filterMap` over the raw entry list. -/
theorem walkForest_eq : ∀ (es : EntryList) (p : String) (d : Nat) (cfg : WalkConfig),
    walkForest es p d cfg =
      ((es.toList.filter
          (fun c => !c.isIoErr && !(cfg.followSymlinks && c.isBrokenSymlink))).filter
        (fun c => !cfg.filter.shouldExclude ⟨p ++ "/" ++ c.nameD, some c.nameD⟩)).filterMap
        (fun c => walkNode c (p ++ "/" ++ c.nameD) d cfg)
  | .nil, _, _, _ => rfl
  | .cons c rest, p, d, cfg => by
      rw [walkForest, walkForest_eq rest p d cfg]
      show (if (c.isIoErr || (cfg.followSymlinks && c.isBrokenSymlink)) = true then []
        else _) ++ _ = _
      by_cases h1 : (c.isIoErr || (cfg.followSymlinks && c.isBrokenSymlink)) = true
      · rw [if_pos h1]
        have hk : (!c.isIoErr && !(cfg.followSymlinks && c.isBrokenSymlink)) = false := by
          rw [← Bool.not_or, h1]
          rfl
        simp only [EntryList.toList, List.filter_cons, hk, Bool.false_eq_true, if_false,
          List.nil_append]
      · rw [if_neg h1]
        have hx : (c.isIoErr || (cfg.followSymlinks && c.isBrokenSymlink)) = false :=
          Bool.eq_false_iff.mpr h1
        have hk : (!c.isIoErr && !(cfg.followSymlinks && c.isBrokenSymlink)) = true := by
          rw [← Bool.not_or, hx]
          rfl
        simp only [EntryList.toList, List.filter_cons, hk, if_true]
        by_cases h2 : cfg.filter.shouldExclude ⟨p ++ "/" ++ c.nameD, some c.nameD⟩ = true
        · rw [if_pos h2]
          simp only [h2, Bool.not_true, Bool.false_eq_true, if_false, List.nil_append]
        · rw [if_neg h2]
          have h2' : cfg.filter.shouldExclude ⟨p ++ "/" ++ c.nameD, some c.nameD⟩ = false :=
            Bool.not_eq_true _ ▸ Bool.eq_false_iff.mpr h2
          simp only [h2', Bool.not_false, if_true, List.filterMap_cons]
          cases hw : walkNode c (p ++ "/" ++ c.nameD) d cfg <;> simp [hw]

/-- `walkKids` (one walker level before sorting) over the filtered
enumeration — the exact list the streaming walker also starts from. -/
theorem walkKids_eq (e : Entry) (p : String) (d : Nat) (cfg : WalkConfig) :
    walkKids e p d cfg =
      ((enumEntries e cfg.followSymlinks).filter
        (fun c => !cfg.filter.shouldExclude ⟨p ++ "/" ++ c.nameD, some c.nameD⟩)).filterMap
        (fun c => walkNode c (p ++ "/" ++ c.nameD) d cfg) := by
  cases e with
  | dir n ds es => exact walkForest_eq es p d cfg
  | symlink n ls t =>
      cases t with
      | none => rfl
      | tfile s => rfl
      | tdir ds es => exact walkForest_eq es p d cfg
  | file n s => rfl
  | ioErr => rfl
  | statErr n => rfl

/-- The single-node view of `walk_recursive`: classify via `statMeta`, size
`m.len`, and children exactly when directory-classified and below the depth
limit. -/
theorem walkNode_eq_mk (e : Entry) (p : String) (d : Nat) (cfg : WalkConfig) :
    walkNode e p d cfg =
      match statMeta e with
      | none => none
      | some m =>
          some (.mk e.nameD p (nodeTypeOf m) m.len d
            (if nodeTypeOf m == .directory then
              (if cfg.maxDepth > 0 && d ≥ cfg.maxDepth then .none
               else childrenOfList (sortEntries (walkKids e p (d + 1) cfg) cfg))
             else .none)) := by
  cases e with
  | file n s => rfl
  | dir n ds es => rfl
  | symlink n ls t => cases t <;> rfl
  | ioErr => rfl
  | statErr n => rfl

theorem countNodesForest_ofList (l : List FsNode) :
    countNodesForest (FsForest.ofList l) = listNodeCount l := by
  induction l with
  | nil => rfl
  | cons n rest ih =>
      simp [FsForest.ofList, countNodesForest, ih, listNodeCount]

theorem countNodesChildren_ofList (l : List FsNode) :
    countNodesChildren (childrenOfList l) = listNodeCount l := by
  unfold childrenOfList
  cases l with
  | nil => rfl
  | cons n rest => simp [countNodesChildren, countNodesForest_ofList]

theorem listNodeCount_perm {l l' : List FsNode} (h : l.Perm l') :
    listNodeCount l = listNodeCount l' := by
  unfold listNodeCount
  exact (h.map countNodesRecursive).sum_eq

theorem listNodeCount_sortEntries (l : List FsNode) (cfg : WalkConfig) :
    listNodeCount (sortEntries l cfg) = listNodeCount l :=
  listNodeCount_perm (sortEntries_perm l cfg)

/-! ## Stats totals (claim C5) -/

mutual
theorem countNode_accSum : ∀ (n : FsNode) (acc : StatsAcc),
    accSum (countNode n acc) = accSum acc + countNodesRecursive n
  | .mk n p t s d c, acc => by
      unfold countNode countNodesRecursive
      cases t <;>
        (rw [countChildren_accSum c _] <;>
         unfold accSum <;> simp <;> omega)
theorem countChildren_accSum : ∀ (c : FsChildren) (acc : StatsAcc),
    accSum (countChildren c acc) = accSum acc + countNodesChildren c
  | .none, acc => by simp [countChildren, countNodesChildren]
  | .some f, acc => by
      rw [show countChildren (.some f) acc = countForestAcc f acc from rfl]
      rw [countForestAcc_accSum f acc]
      rfl
theorem countForestAcc_accSum : ∀ (f : FsForest) (acc : StatsAcc),
    accSum (countForestAcc f acc) = accSum acc + countNodesForest f
  | .nil, acc => by simp [countForestAcc, countNodesForest]
  | .cons n rest, acc => by
      rw [show countForestAcc (.cons n rest) acc
          = countForestAcc rest (countNode n acc) from rfl]
      rw [countForestAcc_accSum rest _, countNode_accSum n acc]
      have hc : countNodesForest (.cons n rest)
          = countNodesRecursive n + countNodesForest rest := rfl
      rw [hc]
      omega
end

theorem statsSum_eq_totalNodeCount (t : FsTree) :
    statsSum (collectStats t) = totalNodeCount t := by
  unfold statsSum collectStats totalNodeCount
  have := countNode_accSum t.root ⟨0, 0, 0, 0, []⟩
  unfold accSum at this
  simpa using this

theorem mem_toList_height : ∀ (es : EntryList) (c : Entry),
    c ∈ es.toList → entryHeight c ≤ entryListHeight es
  | .nil, c => fun h => absurd h (by simp [EntryList.toList])
  | .cons e rest, c => fun h => by
      rw [EntryList.toList, List.mem_cons] at h
      show entryHeight c ≤ max (entryHeight e) (entryListHeight rest)
      rcases h with rfl | h
      · exact le_max_left _ _
      · exact le_trans (mem_toList_height rest c h) (le_max_right _ _)

theorem entryHeight_lt_of_mem_enum (e c : Entry) (follow : Bool)
    (h : c ∈ enumEntries e follow) : entryHeight c < entryHeight e := by
  cases e with
  | dir n ds es =>
      have h' : c ∈ es.toList.filter
          (fun c => !c.isIoErr && !(follow && c.isBrokenSymlink)) := h
      have hc : c ∈ es.toList := (List.mem_filter.mp h').1
      have := mem_toList_height es c hc
      show entryHeight c < 1 + entryListHeight es
      omega
  | symlink n ls t =>
      cases t with
      | tdir ds es =>
          have h' : c ∈ es.toList.filter
              (fun c => !c.isIoErr && !(follow && c.isBrokenSymlink)) := h
          have hc : c ∈ es.toList := (List.mem_filter.mp h').1
          have := mem_toList_height es c hc
          show entryHeight c < targetHeight (.tdir ds es)
          rw [show targetHeight (.tdir ds es) = 1 + entryListHeight es from rfl]
          omega
      | none => exact absurd h (by simp [enumEntries])
      | tfile s => exact absurd h (by simp [enumEntries])
  | file n s => exact absurd h (by simp [enumEntries])
  | ioErr => exact absurd h (by simp [enumEntries])
  | statErr n => exact absurd h (by simp [enumEntries])

theorem emitLoop_length (recurse : Entry → String → List StreamNode)
    (path : String) (depth : Nat) (cfg : StreamConfig) (l : List Entry) :
    (emitLoop recurse path depth cfg l).length =
      (l.map (fun c =>
        match statMeta c with
        | none => 0
        | some m => 1 + (if nodeTypeOf m == FsNodeType.directory then
            (recurse c (path ++ "/" ++ c.nameD)).length else 0))).sum := by
  induction l with
  | nil => rfl
  | cons c rest ih =>
      rw [show emitLoop recurse path depth cfg (c :: rest)
          = emitOne recurse path depth cfg c rest.isEmpty ++
            emitLoop recurse path depth cfg rest from rfl]
      rw [List.length_append, ih, List.map_cons, List.sum_cons]
      have hb : (emitOne recurse path depth cfg c rest.isEmpty).length =
          (match statMeta c with
           | none => 0
           | some m => 1 + (if nodeTypeOf m == FsNodeType.directory then
               (recurse c (path ++ "/" ++ c.nameD)).length else 0)) := by
        unfold emitOne
        cases hm : statMeta c with
        | none => rfl
        | some m =>
            simp only []
            by_cases hd : (nodeTypeOf m == FsNodeType.directory) = true
            · rw [if_pos hd, if_pos hd, List.length_cons]
              exact Nat.add_comm _ 1
            · rw [if_neg hd, if_neg hd]
              rfl
      rw [hb]

theorem listNodeCount_filterMap (l : List Entry) (g : Entry → Option FsNode) :
    listNodeCount (l.filterMap g) =
      (l.map (fun c =>
        match g c with
        | some n => countNodesRecursive n
        | none => 0)).sum := by
  induction l with
  | nil => rfl
  | cons c rest ih =>
      rw [List.filterMap_cons]
      cases hg : g c with
      | none => simpa [hg] using ih
      | some n =>
          simp only [hg, List.map_cons, List.sum_cons]
          rw [show listNodeCount (n :: rest.filterMap g)
            = countNodesRecursive n + listNodeCount (rest.filterMap g) by
              simp [listNodeCount]]
          rw [ih]

theorem map_congr_mem {l : List α} {f g : α → β}
    (h : ∀ a ∈ l, f a = g a) : l.map f = l.map g := by
  induction l with
  | nil => rfl
  | cons x xs ih =>
      rw [List.map_cons, List.map_cons, h x (by simp), ih (fun a ha => h a (by simp [ha]))]

/-- Streaming emission count equals the walker's node count for the same
level, for unlimited depth and sufficient fuel. -/
theorem streamChildren_length_eq (fuel : Nat) :
    ∀ (e : Entry) (p : String) (d : Nat) (wc : WalkConfig),
      wc.maxDepth = 0 → entryHeight e ≤ fuel →
      (streamChildren fuel e p d wc.toStreamConfig).length =
        listNodeCount (walkKids e p (d + 1) wc) := by
  induction fuel with
  | zero =>
      intro e p d wc h0 hh
      cases e with
      | dir n ds es =>
          exact absurd hh (by simp [entryHeight])
      | symlink n ls t =>
          cases t with
          | tdir ds es =>
              exact absurd hh (by simp [entryHeight, targetHeight])
          | none => simp [streamChildren, walkKids, listNodeCount]
          | tfile s => simp [streamChildren, walkKids, listNodeCount]
      | file n s => simp [streamChildren, walkKids, listNodeCount]
      | ioErr => simp [streamChildren, walkKids, listNodeCount]
      | statErr n => simp [streamChildren, walkKids, listNodeCount]
  | succ f ih =>
      intro e p d wc h0 hh
      rw [streamChildren]
      have hg : ¬((decide (wc.toStreamConfig.maxDepth > 0) &&
          decide (d > wc.toStreamConfig.maxDepth)) = true) := by
        simp [WalkConfig.toStreamConfig, h0]
      rw [if_neg hg]
      rw [emitLoop_length]
      have hfollow : wc.toStreamConfig.followSymlinks = wc.followSymlinks := rfl
      have hfilter : wc.toStreamConfig.filter = wc.filter := rfl
      rw [((sortEntriesStream_perm _ wc.toStreamConfig).map _).sum_eq]
      rw [walkKids_eq, listNodeCount_filterMap]
      rw [hfollow, hfilter]
      apply congrArg List.sum
      apply map_congr_mem
      intro c hc
      have hmem : c ∈ enumEntries e wc.followSymlinks := (List.mem_filter.mp hc).1
      have hhc : entryHeight c ≤ f := by
        have := entryHeight_lt_of_mem_enum e c wc.followSymlinks hmem
        omega
      rw [walkNode_eq_mk]
      cases hm : statMeta c with
      | none => simp
      | some m =>
          simp only []
          by_cases hd : (nodeTypeOf m == FsNodeType.directory) = true
          · rw [if_pos hd, if_pos hd]
            have hlim : (decide (wc.maxDepth > 0) && decide (d + 1 ≥ wc.maxDepth)) = false := by
              simp [h0]
            rw [hlim]
            simp only [Bool.false_eq_true, if_false]
            rw [countNodesRecursive,
              countNodesChildren_ofList, listNodeCount_sortEntries]
            rw [ih c (p ++ "/" ++ c.nameD) (d + 1) wc h0 hhc]
          · rw [if_neg hd, if_neg hd]
            simp [countNodesRecursive, countNodesChildren]

theorem statMeta_of_followed (e : Entry) (m : Metadata)
    (h : followedMeta e = some m) : statMeta e = some m := by
  unfold statMeta
  rw [h]

theorem followedMeta_not_symlink (e : Entry) (m : Metadata)
    (h : followedMeta e = some m) : m.isSymlink = false := by
  cases e with
  | file _ _ => cases h; rfl
  | dir _ _ _ => cases h; rfl
  | symlink _ _ t =>
      cases t with
      | none => exact absurd h (by simp [followedMeta])
      | tfile _ => cases h; rfl
      | tdir _ _ => cases h; rfl
  | ioErr => exact absurd h (by simp [followedMeta])
  | statErr _ => exact absurd h (by simp [followedMeta])

/-- Claim C5 (amended).  `total_files + total_directories + total_symlinks`
equals the number of nodes of the materialized tree *including the root*;
the streaming walker never emits the root, so for unlimited depth the
callback count is exactly that total minus one. -/
theorem C5_node_counts_amended :
    (∀ t : FsTree, statsSum (collectStats t) = totalNodeCount t) ∧
    (∀ (fuel : Nat) (e : Entry) (p : String) (wc : WalkConfig) (t : FsTree)
      (l : List StreamNode),
      wc.maxDepth = 0 → entryHeight e ≤ fuel →
      walkDirectory (some e) p wc = .ok t →
      walkStreaming fuel (some e) p wc.toStreamConfig = .ok l →
      l.length + 1 = totalNodeCount t) := by
  refine ⟨statsSum_eq_totalNodeCount, ?_⟩
  intro fuel e p wc t l h0 hh hwd hws
  unfold walkDirectory at hwd
  unfold walkStreaming at hws
  simp only [] at hwd hws
  cases hfm : followedMeta e with
  | none =>
      rw [hfm] at hwd
      exact absurd hwd (by simp)
  | some m =>
      rw [hfm] at hwd hws
      simp only [] at hwd hws
      cases hmd : m.isDir with
      | false =>
          rw [hmd] at hwd
          exact absurd hwd (by simp)
      | true =>
          rw [hmd] at hwd hws
          simp only [Bool.not_true, Bool.false_eq_true, if_false] at hwd hws
          cases hw : walkNode e p 0 wc with
          | none =>
              rw [hw] at hwd
              exact absurd hwd (by simp)
          | some rootNode =>
              rw [hw] at hwd
              have ht : t = ⟨rootNode, calculateMaxDepth rootNode⟩ := by
                cases hwd
                rfl
              have hl : l = streamChildren fuel e p 0 wc.toStreamConfig := by
                cases hws
                rfl
              subst ht
              subst hl
              have hnm : nodeTypeOf m = .directory := by
                unfold nodeTypeOf
                rw [followedMeta_not_symlink e m hfm, hmd]
                rfl
              have hwe := walkNode_eq_mk e p 0 wc
              rw [statMeta_of_followed e m hfm] at hwe
              simp only [hnm] at hwe
              rw [hw] at hwe
              have hlim : (decide (wc.maxDepth > 0) && decide (0 ≥ wc.maxDepth)) = false := by
                simp [h0]
              rw [hlim] at hwe
              simp only [Bool.false_eq_true, if_false, beq_self_eq_true, if_true,
                Option.some.injEq] at hwe
              rw [streamChildren_length_eq fuel e p 0 wc h0 hh]
              show listNodeCount (walkKids e p (0 + 1) wc) + 1
                = totalNodeCount ⟨rootNode, calculateMaxDepth rootNode⟩
              unfold totalNodeCount
              rw [hwe]
              show listNodeCount (walkKids e p (0 + 1) wc) + 1
                = countNodesRecursive
                    (.mk e.nameD p FsNodeType.directory m.len 0
                      (childrenOfList (sortEntries (walkKids e p (0 + 1) wc) wc)))
              rw [show countNodesRecursive
                  (FsNode.mk e.nameD p FsNodeType.directory m.len 0
                    (childrenOfList (sortEntries (walkKids e p (0 + 1) wc) wc)))
                = 1 + countNodesChildren
                    (childrenOfList (sortEntries (walkKids e p (0 + 1) wc) wc)) from rfl]
              rw [countNodesChildren_ofList, listNodeCount_sortEntries]
              omega

/-- Vacuity guard for C5: at a one-file root, the materialized tree has 2
nodes, the stats sum is 2, and the stream emits exactly 1 callback. -/
theorem C5_witness :
    List.length ([] : List StreamNode) + 1 =
      totalNodeCount ⟨.mk "r" "r" .directory 0 0 .none, 0⟩ :=
  C5_node_counts_amended.2 1 (Entry.dir "r" 0 .nil) "r" cfgName
    ⟨.mk "r" "r" .directory 0 0 .none, 0⟩ [] rfl (by decide) rfl rfl

/-- Claim C5, counterexample to the claim as stated: for a root with one
file, the stats sum and the total node count are 2 (root included), but the
streaming walker invokes the callback only once — the callback count does
not equal the node count. -/
theorem C5_counterexample :
    (walkDirectory (some fixSingle) "r" cfgName).toOption.map
        (fun t => statsSum (collectStats t)) = some 2 ∧
    (walkDirectory (some fixSingle) "r" cfgName).toOption.map totalNodeCount = some 2 ∧
    (walkStreaming 9 (some fixSingle) "r" cfgName.toStreamConfig).toOption.map
        List.length = some 1 ∧
    (1 : Nat) ≠ 2 := by
  refine ⟨?_, ?_, ?_, by decide⟩ <;> decide

/-! ## Streaming refinement of the materialized walk (claim C1) -/

theorem ofList_isNil (l : List FsNode) :
    (FsForest.ofList l).isNil = l.isEmpty := by
  cases l <;> rfl

theorem seqChildren_childrenOfList (l : List FsNode) :
    seqChildren (childrenOfList l) = seqForest (FsForest.ofList l) := by
  cases l with
  | nil => rfl
  | cons n rest => rfl

theorem clean_of_mem_toList : ∀ (es : EntryList), es.clean = true →
    ∀ c ∈ es.toList, Entry.clean c = true
  | .nil, _, c, hc => absurd hc (by simp [EntryList.toList])
  | .cons e rest, h, c, hc => by
      have h' : (e.clean && rest.clean) = true := h
      rw [Bool.and_eq_true] at h'
      rw [EntryList.toList, List.mem_cons] at hc
      rcases hc with rfl | hc
      · exact h'.1
      · exact clean_of_mem_toList rest h'.2 c hc

theorem clean_of_mem_enum (e c : Entry) (follow : Bool)
    (he : Entry.clean e = true) (hc : c ∈ enumEntries e follow) :
    Entry.clean c = true ∧ c.isIoErr = false := by
  have hio : c.isIoErr = false := by
    have hf := (List.mem_filter.mp hc).2
    rw [Bool.and_eq_true] at hf
    cases h : c.isIoErr with
    | false => rfl
    | true =>
        have h1 := hf.1
        rw [h] at h1
        exact absurd h1 (by decide)
  refine ⟨?_, hio⟩
  have hmem := (List.mem_filter.mp hc).1
  cases e with
  | dir n ds es => exact clean_of_mem_toList es he c hmem
  | symlink n ls t =>
      cases t with
      | tdir ds es => exact clean_of_mem_toList es he c hmem
      | none => exact absurd hmem (by simp)
      | tfile s => exact absurd hmem (by simp)
  | file n s => exact absurd hmem (by simp)
  | ioErr => exact absurd hmem (by simp)
  | statErr n => exact absurd hmem (by simp)

theorem statMeta_isSome_of_clean (c : Entry) (hcl : Entry.clean c = true)
    (hio : c.isIoErr = false) : (statMeta c).isSome = true := by
  cases c with
  | file _ _ => rfl
  | dir _ _ _ => rfl
  | symlink _ _ t => cases t <;> rfl
  | ioErr => exact Bool.noConfusion (show true = false from hio)
  | statErr _ => exact Bool.noConfusion (show false = true from hcl)

theorem walkNode_isSome_of_clean (c : Entry) (p : String) (d : Nat)
    (cfg : WalkConfig) (hcl : Entry.clean c = true) (hio : c.isIoErr = false) :
    (walkNode c p d cfg).isSome = true := by
  cases c with
  | file _ _ => rfl
  | dir _ _ _ => rfl
  | symlink _ _ t => cases t <;> rfl
  | ioErr => exact Bool.noConfusion (show true = false from hio)
  | statErr _ => exact Bool.noConfusion (show false = true from hcl)

theorem filterMap_eq_map_getD [Inhabited β] (l : List α) (g : α → Option β)
    (h : ∀ a ∈ l, (g a).isSome = true) :
    l.filterMap g = l.map (fun a => (g a).getD default) := by
  induction l with
  | nil => rfl
  | cons x xs ih =>
      rw [List.filterMap_cons, List.map_cons]
      cases hx : g x with
      | none =>
          have hs := h x (by simp)
          rw [hx] at hs
          simp at hs
      | some b =>
          rw [ih (fun a ha => h a (by simp [ha]))]
          simp [hx]

theorem walkNodeD_isDirectory (c : Entry) (p : String) (d : Nat)
    (cfg : WalkConfig) (hcl : Entry.clean c = true) :
    ((walkNode c p d cfg).getD default).isDirectory = c.pathIsDir := by
  cases c with
  | file _ _ => rfl
  | dir _ _ _ => rfl
  | symlink _ _ t => cases t <;> rfl
  | ioErr => rfl
  | statErr _ => exact Bool.noConfusion (show false = true from hcl)

theorem walkNodeD_name (c : Entry) (p : String) (d : Nat)
    (cfg : WalkConfig) (hcl : Entry.clean c = true) :
    ((walkNode c p d cfg).getD default).name = c.nameD := by
  cases c with
  | file _ _ => rfl
  | dir _ _ _ => rfl
  | symlink _ _ t => cases t <;> rfl
  | ioErr => rfl
  | statErr _ => exact Bool.noConfusion (show false = true from hcl)

theorem cmpName_walkNodeD (a b : Entry) (pa pb : String) (da db : Nat)
    (cfg : WalkConfig) (ha : Entry.clean a = true) (hb : Entry.clean b = true) :
    cmpName ((walkNode a pa da cfg).getD default)
        ((walkNode b pb db cfg).getD default) = scmpName a b := by
  unfold cmpName scmpName
  rw [walkNodeD_isDirectory a pa da cfg ha, walkNodeD_isDirectory b pb db cfg hb,
    walkNodeD_name a pa da cfg ha, walkNodeD_name b pb db cfg hb]

theorem sortEntries_name (l : List FsNode) (cfg : WalkConfig)
    (hs : cfg.sortBy = SortField.name) (hr : cfg.reverse = false) :
    sortEntries l cfg = stableSortBy (leOfCmp cmpName) l := by
  simp [sortEntries, hs, hr]

theorem sortEntriesStream_name (l : List Entry) (cfg : StreamConfig)
    (hs : cfg.sortBy = SortField.name) :
    sortEntriesStream l cfg = stableSortBy (leOfCmp scmpName) l := by
  simp [sortEntriesStream, hs]

/-- One emission loop run matches the pre-order listing of the walker nodes
of the same (already sorted) entry list, given that recursion into each
entry matches the walker subtree (`ihf`). -/
theorem emitLoop_seqForest (f : Nat) (p : String) (d : Nat) (wc : WalkConfig)
    (h0 : wc.maxDepth = 0)
    (ihf : ∀ (c : Entry) (cp : String),
      Entry.clean c = true → entryHeight c ≤ f →
      streamTuples (streamChildren f c cp (d + 1) wc.toStreamConfig) =
        shiftTuples (seqForest (FsForest.ofList
          (sortEntries (walkKids c cp (d + 1 + 1) wc) wc)))) :
    ∀ L : List Entry,
      (∀ c ∈ L, Entry.clean c = true ∧ c.isIoErr = false ∧ entryHeight c ≤ f) →
      streamTuples (emitLoop
          (fun c cp => streamChildren f c cp (d + 1) wc.toStreamConfig)
          p d wc.toStreamConfig L) =
        shiftTuples (seqForest (FsForest.ofList (L.map
          (fun c => (walkNode c (p ++ "/" ++ c.nameD) (d + 1) wc).getD default))))
  | [], _ => rfl
  | c :: rest, hL => by
      obtain ⟨hcl, hio, hhc⟩ := hL c (by simp)
      have hrest : ∀ x ∈ rest,
          Entry.clean x = true ∧ x.isIoErr = false ∧ entryHeight x ≤ f :=
        fun x hx => hL x (by simp [hx])
      have hie : (rest.map
          (fun c => (walkNode c (p ++ "/" ++ c.nameD) (d + 1) wc).getD
            default)).isEmpty = rest.isEmpty := by
        cases rest <;> rfl
      conv_lhs => rw [emitLoop]
      rw [List.map_cons]
      cases hm : statMeta c with
      | none =>
          have hsm := statMeta_isSome_of_clean c hcl hio
          rw [hm] at hsm
          simp at hsm
      | some m =>
          simp only []
          have hlim : (decide (wc.maxDepth > 0) &&
              decide (d + 1 ≥ wc.maxDepth)) = false := by
            simp [h0]
          have hgc : (walkNode c (p ++ "/" ++ c.nameD) (d + 1) wc).getD default =
              FsNode.mk c.nameD (p ++ "/" ++ c.nameD) (nodeTypeOf m) m.len (d + 1)
                (if nodeTypeOf m == FsNodeType.directory then
                  childrenOfList
                    (sortEntries (walkKids c (p ++ "/" ++ c.nameD) (d + 1 + 1) wc) wc)
                 else FsChildren.none) := by
            rw [walkNode_eq_mk, hm]
            simp only [Option.getD_some]
            rw [hlim]
            simp only [Bool.false_eq_true, if_false]
          rw [hgc]
          simp only [FsForest.ofList, seqForest, seqNode, ofList_isNil, hie,
            streamTuples, shiftTuples, List.map_append, List.map_cons,
            List.cons_append]
          by_cases hd : (nodeTypeOf m == FsNodeType.directory) = true
          · rw [if_pos hd, if_pos hd]
            simp only [List.cons_append, List.map_cons, List.map_append]
            refine congrArg₂ List.cons ?_ (congrArg₂ (· ++ ·) ?_ ?_)
            · simp
            · rw [seqChildren_childrenOfList]
              exact ihf c (p ++ "/" ++ c.nameD) hcl hhc
            · exact emitLoop_seqForest f p d wc h0 ihf rest hrest
          · rw [if_neg hd, if_neg hd]
            simp only [seqChildren, List.cons_append, List.nil_append,
              List.map_cons]
            refine congrArg₂ List.cons ?_ ?_
            · simp
            · exact emitLoop_seqForest f p d wc h0 ihf rest hrest

/-- The emitted stream of one subtree equals the depth-shifted pre-order
listing of the sorted walker children of the same entry, for unlimited
depth, name sort, no reverse, and clean (stat-readable) entries. -/
theorem streamTuples_streamChildren (fuel : Nat) :
    ∀ (e : Entry) (p : String) (d : Nat) (wc : WalkConfig),
      wc.maxDepth = 0 → wc.sortBy = SortField.name → wc.reverse = false →
      Entry.clean e = true → entryHeight e ≤ fuel →
      streamTuples (streamChildren fuel e p d wc.toStreamConfig) =
        shiftTuples (seqForest (FsForest.ofList
          (sortEntries (walkKids e p (d + 1) wc) wc))) := by
  induction fuel with
  | zero =>
      intro e p d wc h0 hs hr hcl hh
      cases e with
      | dir n ds es => exact absurd hh (by simp [entryHeight])
      | symlink n ls t =>
          cases t with
          | tdir ds es => exact absurd hh (by simp [entryHeight, targetHeight])
          | none =>
              simp [streamChildren, walkKids, sortEntries, hs, hr, stableSortBy,
                FsForest.ofList, seqForest, streamTuples, shiftTuples]
          | tfile s =>
              simp [streamChildren, walkKids, sortEntries, hs, hr, stableSortBy,
                FsForest.ofList, seqForest, streamTuples, shiftTuples]
      | file n s =>
          simp [streamChildren, walkKids, sortEntries, hs, hr, stableSortBy,
            FsForest.ofList, seqForest, streamTuples, shiftTuples]
      | ioErr =>
          simp [streamChildren, walkKids, sortEntries, hs, hr, stableSortBy,
            FsForest.ofList, seqForest, streamTuples, shiftTuples]
      | statErr n =>
          simp [streamChildren, walkKids, sortEntries, hs, hr, stableSortBy,
            FsForest.ofList, seqForest, streamTuples, shiftTuples]
  | succ f ih =>
      intro e p d wc h0 hs hr hcl hh
      rw [streamChildren]
      have hg : ¬((decide (wc.toStreamConfig.maxDepth > 0) &&
          decide (d > wc.toStreamConfig.maxDepth)) = true) := by
        simp [WalkConfig.toStreamConfig, h0]
      rw [if_neg hg]
      have hfollow : wc.toStreamConfig.followSymlinks = wc.followSymlinks := rfl
      have hfilter : wc.toStreamConfig.filter = wc.filter := rfl
      have hs' : wc.toStreamConfig.sortBy = SortField.name := hs
      rw [hfollow, hfilter]
      have hsur : ∀ c ∈ (enumEntries e wc.followSymlinks).filter
          (fun c => !wc.filter.shouldExclude ⟨p ++ "/" ++ c.nameD, some c.nameD⟩),
          Entry.clean c = true ∧ c.isIoErr = false ∧ entryHeight c ≤ f := by
        intro c hc
        have hmem : c ∈ enumEntries e wc.followSymlinks := (List.mem_filter.mp hc).1
        obtain ⟨h1, h2⟩ := clean_of_mem_enum e c wc.followSymlinks hcl hmem
        refine ⟨h1, h2, ?_⟩
        have := entryHeight_lt_of_mem_enum e c wc.followSymlinks hmem
        omega
      rw [walkKids_eq]
      rw [filterMap_eq_map_getD _ _ (fun c hc =>
        walkNode_isSome_of_clean c (p ++ "/" ++ c.nameD) (d + 1) wc
          (hsur c hc).1 (hsur c hc).2.1)]
      rw [sortEntries_name _ wc hs hr]
      rw [stableSortBy_map (leOfCmp scmpName) (leOfCmp cmpName)
        (fun c => (walkNode c (p ++ "/" ++ c.nameD) (d + 1) wc).getD default)
        _ (fun a ha b hb => by
          unfold leOfCmp
          rw [cmpName_walkNodeD a b (p ++ "/" ++ a.nameD) (p ++ "/" ++ b.nameD)
            (d + 1) (d + 1) wc (hsur a ha).1 (hsur b hb).1])]
      rw [sortEntriesStream_name _ _ hs']
      exact emitLoop_seqForest f p d wc h0
        (fun c cp hc hhc => ih c cp (d + 1) wc h0 hs hr hc hhc)
        _
        (fun c hc => hsur c ((stableSortBy_perm _ _).mem_iff.mp hc))

/-- Claim C1 (amended).  For unlimited depth (`max_depth = 0`), name sort,
`reverse` unset, and a root under which every enumerated entry's metadata is
readable, the callback sequence of the streaming walker is the depth-first,
parent-before-children listing of the materialized tree *without its root
node and with every depth decremented by one* (the streaming walker never
reports the root and counts its children as depth 0, not 1).  The claim's
literal statement — equality of the full `(name, depth, is_last)` sequences
— is false (see the counterexample), as is the equivalence for `reverse`,
for size sort, and in the presence of metadata-fetch failures. -/
theorem C1_stream_refines_walk_amended
    (fuel : Nat) (e : Entry) (p : String) (wc : WalkConfig) (t : FsTree)
    (l : List StreamNode)
    (h0 : wc.maxDepth = 0) (hs : wc.sortBy = SortField.name)
    (hr : wc.reverse = false) (hcl : Entry.clean e = true)
    (hh : entryHeight e ≤ fuel)
    (hwd : walkDirectory (some e) p wc = .ok t)
    (hws : walkStreaming fuel (some e) p wc.toStreamConfig = .ok l) :
    streamTuples l = shiftTuples (List.tail (seqNode t.root true)) := by
  unfold walkDirectory at hwd
  unfold walkStreaming at hws
  simp only [] at hwd hws
  cases hfm : followedMeta e with
  | none =>
      rw [hfm] at hwd
      exact absurd hwd (by simp)
  | some m =>
      rw [hfm] at hwd hws
      simp only [] at hwd hws
      cases hmd : m.isDir with
      | false =>
          rw [hmd] at hwd
          exact absurd hwd (by simp)
      | true =>
          rw [hmd] at hwd hws
          simp only [Bool.not_true, Bool.false_eq_true, if_false] at hwd hws
          cases hw : walkNode e p 0 wc with
          | none =>
              rw [hw] at hwd
              exact absurd hwd (by simp)
          | some rootNode =>
              rw [hw] at hwd
              have ht : t = ⟨rootNode, calculateMaxDepth rootNode⟩ := by
                cases hwd
                rfl
              have hl : l = streamChildren fuel e p 0 wc.toStreamConfig := by
                cases hws
                rfl
              subst ht
              subst hl
              have hnm : nodeTypeOf m = .directory := by
                unfold nodeTypeOf
                rw [followedMeta_not_symlink e m hfm, hmd]
                rfl
              have hwe := walkNode_eq_mk e p 0 wc
              rw [statMeta_of_followed e m hfm] at hwe
              simp only [hnm] at hwe
              rw [hw] at hwe
              have hlim : (decide (wc.maxDepth > 0) && decide (0 ≥ wc.maxDepth)) = false := by
                simp [h0]
              rw [hlim] at hwe
              simp only [Bool.false_eq_true, if_false, beq_self_eq_true, if_true,
                Option.some.injEq] at hwe
              rw [streamTuples_streamChildren fuel e p 0 wc h0 hs hr hcl hh]
              show shiftTuples (seqForest (FsForest.ofList
                  (sortEntries (walkKids e p (0 + 1) wc) wc)))
                = shiftTuples (List.tail (seqNode rootNode true))
              rw [hwe]
              rw [show seqNode (FsNode.mk e.nameD p FsNodeType.directory m.len 0
                  (childrenOfList (sortEntries (walkKids e p (0 + 1) wc) wc))) true
                = (e.nameD, 0, true) :: seqChildren (childrenOfList
                    (sortEntries (walkKids e p (0 + 1) wc) wc)) from rfl]
              rw [List.tail_cons, seqChildren_childrenOfList]

/-- Vacuity guard for C1: the amended equivalence instantiated at a root
with one file. -/
theorem C1_witness :
    streamTuples [⟨"a", "r/a", FsNodeType.file, 1, 0, false, true⟩] =
      shiftTuples (List.tail (seqNode
        (FsNode.mk "r" "r" FsNodeType.directory 4096 0
          (FsChildren.some (FsForest.cons
            (FsNode.mk "a" "r/a" FsNodeType.file 1 1 FsChildren.none)
            FsForest.nil))) true)) :=
  C1_stream_refines_walk_amended 2 fixSingle "r" cfgName
    ⟨FsNode.mk "r" "r" FsNodeType.directory 4096 0
      (FsChildren.some (FsForest.cons
        (FsNode.mk "a" "r/a" FsNodeType.file 1 1 FsChildren.none)
        FsForest.nil)), 1⟩
    [⟨"a", "r/a", FsNodeType.file, 1, 0, false, true⟩]
    rfl rfl rfl (by decide) (by decide) rfl rfl

/-- Claim C1, counterexample to the claim as stated: (1) the raw sequences
differ even on a one-file root (the stream omits the root and shifts
depths); and the root-dropping, depth-shifting correspondence itself fails
(2) with `reverse` set (the streaming sort ignores it), (3) under size sort
(the walker compares followed-target sizes, the streaming sort raw
`symlink_metadata` sizes), and (4) with a metadata-failing entry (it is
dropped by the walker before sorting but still counted by the streaming
loop's `is_last`). -/
theorem C1_counterexample :
    (resultStreamTuples (walkStreaming 9 (some fixSingle) "r" cfgName.toStreamConfig) ≠
      resultSeq (walkDirectory (some fixSingle) "r" cfgName)) ∧
    (resultStreamTuples (walkStreaming 9 (some fixTwo) "r" cfgNameRev.toStreamConfig) ≠
      (resultSeq (walkDirectory (some fixTwo) "r" cfgNameRev)).map
        (fun s => shiftTuples s.tail)) ∧
    (resultStreamTuples (walkStreaming 9 (some fixSymSize) "r" cfgSize.toStreamConfig) ≠
      (resultSeq (walkDirectory (some fixSymSize) "r" cfgSize)).map
        (fun s => shiftTuples s.tail)) ∧
    (resultStreamTuples (walkStreaming 9 (some fixStatErr) "r" cfgName.toStreamConfig) ≠
      (resultSeq (walkDirectory (some fixStatErr) "r" cfgName)).map
        (fun s => shiftTuples s.tail)) := by
  refine ⟨?_, ?_, ?_, ?_⟩ <;> decide


end RustTree
